import Mathlib

/-!
Sampling from binomial, categorical and multinomial distributions (pserng).

A shallow embedding of the three class templates of
`include/binomial_distribution.hpp`, `include/categorical_distribution.hpp` and
`include/multinomial_distribution.hpp`, with `IntType = int`.

Conventions of the embedding

* `double` values are exact rationals (`ℚ`) in the first embedding: arithmetic
  is taken exactly, and a statement that depends on a quotient is made where
  the divisor is not zero.  It carries the statements that are made for exact
  arithmetic and those that do not depend on the values the arithmetic gives.
* The statements about the values the code computes in `double` are made over
  a second embedding (`machine`), the same code over an arbitrary arithmetic
  `Arith`: they hold whatever `+`, `*`, `/`, `<=`, `<` and the conversion to
  `double` return, rounding, infinities and NaN included.
* `int` values are `Int`; every counter of the code stays between `0` and the
  trial count, so no machine overflow can occur and no reduction is applied.
* The generator `G& g` is an explicit value: its two bounds, the sequence of raw
  values it is going to produce, and a cursor into that sequence.  A draw `g()`
  reads the value under the cursor and moves the cursor one step.  Raw values
  and bounds are integers; for a raw value between the bounds the differences
  `g() - g.min()` and `g.max() - g.min()` of the code are the exact ones.
* A call that runs off the end of a value-returning function, or that stores
  outside a vector, has no defined result: it is `none`.
-/

namespace pserng

/-! ## The uniform random bit generator -/

/-- Generator handed to `operator()`: the bounds `g.min()`, `g.max()`, the raw
values of successive calls `g()`, and the number of calls made so far. -/
structure Gen where
  gmin : Int
  gmax : Int
  draws : Nat → Int
  pos : Nat

/-- One call `g()`: the raw value and the advanced generator. -/
def Gen.next (g : Gen) : Int × Gen :=
  (g.draws g.pos, { g with pos := g.pos + 1 })

/-- Every raw value of the generator lies between its declared bounds. -/
def Gen.in_range (g : Gen) : Prop :=
  ∀ n, g.gmin ≤ g.draws n ∧ g.draws n ≤ g.gmax

/-! ## binomial_distribution -/

/-- Data members `t_` and `p_` of `binomial_distribution<int>`. -/
structure binomial_distribution where
  t_ : Int
  p_ : ℚ

namespace binomial_distribution

/-- Accessor `t()`. -/
def t (d : binomial_distribution) : Int := d.t_

/-- Accessor `p()`. -/
def p (d : binomial_distribution) : ℚ := d.p_

/-- Accessor `min()`. -/
def min (_d : binomial_distribution) : Int := 0

/-- Accessor `max()`. -/
def max (d : binomial_distribution) : Int := d.t_

/-- The test of one trial: `(val_g - g_min) < p_ * (g_max - g_min)`, arithmetic
taken exactly; `machine.binomial_distribution.success` is the test as the
machine evaluates it. -/
def success (p_ : ℚ) (g_min g_max val_g : Int) : Bool :=
  decide (((val_g - g_min : Int) : ℚ) < p_ * ((g_max - g_min : Int) : ℚ))

/-- The loop `for (tt = 0; tt < t_; ++tt)` of `operator()`, by the number of
iterations still to run; the body does not read `tt`. -/
def trial_loop (p_ : ℚ) (g_min g_max : Int) : Nat → Int → Gen → Int × Gen
  | 0, pos_trials, g => (pos_trials, g)
  | n + 1, pos_trials, g =>
    let val_g := g.next.1
    if success p_ g_min g_max val_g then
      trial_loop p_ g_min g_max n (pos_trials + 1) g.next.2
    else
      trial_loop p_ g_min g_max n pos_trials g.next.2

/-- The body of `operator()`: the loop runs `t_` times when `t_` is positive and
not at all otherwise. -/
def call (d : binomial_distribution) (g : Gen) : Int × Gen :=
  trial_loop d.p_ g.gmin g.gmax d.t_.toNat 0 g

end binomial_distribution

/-! ## categorical_distribution -/

/-- The running sums written by `std::partial_sum` after the first element,
arithmetic taken exactly; `machine.partial_sum_loop` has the sums as the machine
adds them. -/
def partial_sum_loop : List ℚ → ℚ → List ℚ
  | [], _ => []
  | w :: ws, acc => (acc + w) :: partial_sum_loop ws (acc + w)

/-- The output range of `std::partial_sum` over a vector. -/
def partial_sum : List ℚ → List ℚ
  | [] => []
  | w :: ws => w :: partial_sum_loop ws w

/-- Data members `weights_` and `partsums_weights_`. -/
structure categorical_distribution where
  weights_ : List ℚ
  partsums_weights_ : List ℚ

namespace categorical_distribution

/-- The constructor: the weights are copied and their running sums stored. -/
def ctor (weights : List ℚ) : categorical_distribution :=
  { weights_ := weights, partsums_weights_ := partial_sum weights }

/-- Accessor `weights()`. -/
def weights (d : categorical_distribution) : List ℚ := d.weights_

/-- Accessor `min()`. -/
def min (_d : categorical_distribution) : Int := 0

/-- Accessor `max()`. -/
def max (d : categorical_distribution) : Int := d.weights_.length

/-- The normalised draw `(g() - g.min()) / double(g.max() - g.min())`, arithmetic
taken exactly; `machine.categorical_distribution.unif` is the quotient as the
machine computes it. -/
def unif (g_min g_max raw : Int) : ℚ :=
  ((raw - g_min : Int) : ℚ) / ((g_max - g_min : Int) : ℚ)

/-- The loop `for (int i = 0; i < weights_.size(); ++i)`, by the number of
iterations still to run and the current `i`; `none` when the loop ends without
a `return`. -/
def scan_loop (partsums : List ℚ) (discr : ℚ) : Nat → Nat → Option Nat
  | 0, _ => none
  | n + 1, i =>
    if discr ≤ partsums.getD i 0 then some i
    else scan_loop partsums discr n (i + 1)

/-- The body of `operator()`, arithmetic taken exactly.  One raw value is drawn;
`back()` of an empty vector has no value. -/
def call (d : categorical_distribution) (g : Gen) : Option Nat × Gen :=
  let raw := g.next.1
  match d.partsums_weights_.getLast? with
  | none => (none, g.next.2)
  | some sum_weights =>
    let discr := unif g.gmin g.gmax raw * sum_weights
    (scan_loop d.partsums_weights_ discr d.weights_.length 0, g.next.2)

end categorical_distribution

/-! ## multinomial_distribution -/

/-- Data members `t_`, `K_` and `binom_p_`. -/
structure multinomial_distribution where
  t_ : Int
  K_ : Int
  binom_p_ : List ℚ

namespace multinomial_distribution

/-- The first constructor loop: `sum_weights += weights[k]`. -/
def sum_loop : List ℚ → ℚ → ℚ
  | [], sum_weights => sum_weights
  | w :: ws, sum_weights => sum_loop ws (sum_weights + w)

/-- The second constructor loop: `binom_p_[k] = weights[k] / (sum_weights -
partsum_weights)` followed by `partsum_weights += weights[k]`. -/
def binom_p_loop (sum_weights : ℚ) : List ℚ → ℚ → List ℚ
  | [], _ => []
  | w :: ws, partsum_weights =>
    (w / (sum_weights - partsum_weights)) ::
      binom_p_loop sum_weights ws (partsum_weights + w)

/-- The constructor. -/
def ctor (t : Int) (weights : List ℚ) : multinomial_distribution :=
  { t_ := t
    K_ := weights.length
    binom_p_ := binom_p_loop (sum_loop weights 0) weights 0 }

/-- Accessor `t()`. -/
def t (d : multinomial_distribution) : Int := d.t_

/-- The loop `for (k = 0; k < K_ - 1; ++k)` of `operator()`, by the number of
iterations still to run and the current `k`; the state is `counts`, `t_avail`
and the generator. -/
def count_loop (binom_p : List ℚ) : Nat → Nat → List Int → Int → Gen → List Int × Int × Gen
  | 0, _, counts, t_avail, g => (counts, t_avail, g)
  | n + 1, k, counts, t_avail, g =>
    let binom_dist : binomial_distribution := { t_ := t_avail, p_ := binom_p.getD k 0 }
    let r := binom_dist.call g
    let t_cnt := r.1
    count_loop binom_p n (k + 1) (counts.set k t_cnt) (t_avail - t_cnt) r.2

/-- The body of `operator()`.  With no category the store `counts[K_ - 1]` is
outside the vector and the call has no value. -/
def call (d : multinomial_distribution) (g : Gen) : Option (List Int) × Gen :=
  if d.K_ ≤ 0 then (none, g)
  else
    let counts := List.replicate d.K_.toNat (0 : Int)
    let r := count_loop d.binom_p_ (d.K_ - 1).toNat 0 counts d.t_ g
    (some (r.1.set (d.K_ - 1).toNat r.2.1), r.2.2)

end multinomial_distribution

/-! ## The same code over the arithmetic of the machine

The binomial test, the normalised draw, the running sums and the scan of the
categorical distribution compute in `double`.  Where a statement is about the
values so computed, the code is embedded over an arbitrary arithmetic: a type of
`double` values with the operations the code applies to them, each one standing
for whatever the machine returns, rounding, infinities and NaN included.  A
statement proved for every such arithmetic holds of the compiled code; the exact
rationals used above are one instance. -/

/-- The operations of the code on `double` values: the constant `0.`, `+`, `*`,
`/`, the comparisons `<=` and `<`, and the conversion to `double` of a
difference `a - b` of two generator values, taken in the generator's unsigned
result type. -/
structure Arith where
  D : Type
  zero : D
  add : D → D → D
  mul : D → D → D
  div : D → D → D
  of_diff : Int → Int → D
  le : D → D → Bool
  lt : D → D → Bool

/-- The arithmetic of the exact rationals. -/
def exact_arith : Arith :=
  { D := ℚ
    zero := 0
    add := fun x y => x + y
    mul := fun x y => x * y
    div := fun x y => x / y
    of_diff := fun a b => ((a - b : Int) : ℚ)
    le := fun x y => decide (x ≤ y)
    lt := fun x y => decide (x < y) }

namespace machine

/-- Data members `t_` and `p_` of `binomial_distribution<int>`. -/
structure binomial_distribution (A : Arith) where
  t_ : Int
  p_ : A.D

namespace binomial_distribution

/-- The test of one trial, `(val_g - g_min) < p_ * (g_max - g_min)`, as the
machine evaluates it: both differences are converted to `double`, the product
and the comparison are those of `double`. -/
def success (A : Arith) (p_ : A.D) (g_min g_max val_g : Int) : Bool :=
  A.lt (A.of_diff val_g g_min) (A.mul p_ (A.of_diff g_max g_min))

/-- The loop `for (tt = 0; tt < t_; ++tt)` of `operator()`, by the number of
iterations still to run; the body does not read `tt`. -/
def trial_loop (A : Arith) (p_ : A.D) (g_min g_max : Int) : Nat → Int → Gen → Int × Gen
  | 0, pos_trials, g => (pos_trials, g)
  | n + 1, pos_trials, g =>
    let val_g := g.next.1
    if success A p_ g_min g_max val_g then
      trial_loop A p_ g_min g_max n (pos_trials + 1) g.next.2
    else
      trial_loop A p_ g_min g_max n pos_trials g.next.2

/-- The body of `operator()`: the loop runs `t_` times when `t_` is positive and
not at all otherwise. -/
def call {A : Arith} (d : binomial_distribution A) (g : Gen) : Int × Gen :=
  trial_loop A d.p_ g.gmin g.gmax d.t_.toNat 0 g

end binomial_distribution

/-- The running sums written by `std::partial_sum` after the first element:
`acc = acc + *i`, stored at each step. -/
def partial_sum_loop (A : Arith) : List A.D → A.D → List A.D
  | [], _ => []
  | w :: ws, acc => A.add acc w :: partial_sum_loop A ws (A.add acc w)

/-- The output range of `std::partial_sum` over a vector: the first element as
it is, then the running sums. -/
def partial_sum (A : Arith) : List A.D → List A.D
  | [] => []
  | w :: ws => w :: partial_sum_loop A ws w

/-- Data members `weights_` and `partsums_weights_`. -/
structure categorical_distribution (A : Arith) where
  weights_ : List A.D
  partsums_weights_ : List A.D

namespace categorical_distribution

/-- The constructor: the weights are copied and their running sums stored. -/
def ctor (A : Arith) (weights : List A.D) : categorical_distribution A :=
  { weights_ := weights, partsums_weights_ := partial_sum A weights }

/-- The normalised draw `(g() - g.min()) / double(g.max() - g.min())`. -/
def unif (A : Arith) (g_min g_max raw : Int) : A.D :=
  A.div (A.of_diff raw g_min) (A.of_diff g_max g_min)

/-- The loop `for (int i = 0; i < weights_.size(); ++i)`, by the number of
iterations still to run and the current `i`; `none` when the loop ends without
a `return`. -/
def scan_loop (A : Arith) (partsums : List A.D) (discr : A.D) : Nat → Nat → Option Nat
  | 0, _ => none
  | n + 1, i =>
    if A.le discr (partsums.getD i A.zero) then some i
    else scan_loop A partsums discr n (i + 1)

/-- The body of `operator()`.  One raw value is drawn; `back()` of an empty
vector has no value. -/
def call {A : Arith} (d : categorical_distribution A) (g : Gen) : Option Nat × Gen :=
  let raw := g.next.1
  match d.partsums_weights_.getLast? with
  | none => (none, g.next.2)
  | some sum_weights =>
    let discr := A.mul (unif A g.gmin g.gmax raw) sum_weights
    (scan_loop A d.partsums_weights_ discr d.weights_.length 0, g.next.2)

end categorical_distribution

end machine

/-! ## Vocabulary of the statements -/

/-- The generator's bounds are in strict order and every raw value lies between
them. -/
def Gen.well_formed (g : Gen) : Prop :=
  g.gmin < g.gmax ∧ g.in_range

/-- Weights fit for a multinomial distribution: none is negative, and before each
category but the last the mass of the categories still to come is positive. -/
def valid_weights (weights : List ℚ) : Prop :=
  (∀ w ∈ weights, 0 ≤ w) ∧ ∀ k, k + 1 < weights.length → 0 < (weights.drop k).sum

/-- The counts drawn by `count_loop` for `n` categories from category `k` on, in
order, with the trials left over and the generator after the draws. -/
def count_list (binom_p : List ℚ) : Nat → Nat → Int → Gen → List Int × Int × Gen
  | 0, _, t_avail, g => ([], t_avail, g)
  | n + 1, k, t_avail, g =>
    let binom_dist : binomial_distribution := { t_ := t_avail, p_ := binom_p.getD k 0 }
    let r := binom_dist.call g
    let rest := count_list binom_p n (k + 1) (t_avail - r.1) r.2
    (r.1 :: rest.1, rest.2)

/-- Two generators that cannot be told apart by drawing: equal bounds, and equal
raw values from their cursors on. -/
def Gen.same_draws (g1 g2 : Gen) : Prop :=
  g1.gmin = g2.gmin ∧ g1.gmax = g2.gmax ∧ ∀ j, g1.draws (g1.pos + j) = g2.draws (g2.pos + j)

/-- The generator state left by the binomial draws for the categories before `k`,
starting from `g0`, when the draw for category `i` runs on the trials not yet
given to the categories before `i`. -/
def state_after (binom_p : List ℚ) (counts : List Int) (t : Int) (g0 : Gen) : Nat → Gen
  | 0 => g0
  | k + 1 =>
    ((binomial_distribution.mk (t - (counts.take k).sum) (binom_p.getD k 0)).call
      (state_after binom_p counts t g0 k)).2

/-- The sum `w_0 + w_1 + ... + w_n` as the machine adds it, from the left, one
`+` at a time; `0.` for no summand. -/
def left_sum (A : Arith) : List A.D → A.D
  | [] => A.zero
  | w :: ws => ws.foldl A.add w

/-! ## Sample generators and distributions -/

/-- A generator with bounds `0` and `10` whose raw values cycle through
`3, 10, 6, 2, 9, 5, 1, 8, 4, 0, 7`. -/
def cyc_gen : Gen :=
  { gmin := 0, gmax := 10, draws := fun n => ((3 + 7 * n : Nat) : Int) % 11, pos := 0 }

/-- A generator with bounds `0` and `10` that always returns its maximum. -/
def top_gen : Gen :=
  { gmin := 0, gmax := 10, draws := fun _ => 10, pos := 0 }

/-- A generator with bounds `0` and `10` that always returns its minimum. -/
def bottom_gen : Gen :=
  { gmin := 0, gmax := 10, draws := fun _ => 0, pos := 0 }

/-- The generator `cyc_gen` after one full cycle of eleven draws. -/
def cyc_gen_lap : Gen :=
  { gmin := 0, gmax := 10, draws := fun n => ((3 + 7 * n : Nat) : Int) % 11, pos := 11 }

/-! ## Facts about the trial loop of the binomial distribution -/

/-- The generator after `n` iterations of the trial loop: the cursor has moved
by `n` and nothing else has changed. -/
theorem trial_loop_gen (p_ : ℚ) (a b : Int) (n : Nat) (acc : Int) (g : Gen) :
    (binomial_distribution.trial_loop p_ a b n acc g).2 = { g with pos := g.pos + n } := by
  induction n generalizing acc g with
  | zero => rfl
  | succ n ih =>
    simp only [binomial_distribution.trial_loop]
    split <;> rw [ih] <;> simp [Gen.next, Nat.add_assoc, Nat.add_comm 1 n]

/-- The counter after `n` iterations of the trial loop: its initial value plus
the number of successful draws among the next `n` raw values. -/
theorem trial_loop_count (p_ : ℚ) (a b : Int) (n : Nat) (acc : Int) (g : Gen) :
    (binomial_distribution.trial_loop p_ a b n acc g).1 =
      acc + ((List.range n).countP
        (fun j => binomial_distribution.success p_ a b (g.draws (g.pos + j))) : Nat) := by
  induction n generalizing acc g with
  | zero => simp [binomial_distribution.trial_loop]
  | succ n ih =>
    simp only [binomial_distribution.trial_loop]
    rw [List.range_succ_eq_map, List.countP_cons, List.countP_map]
    have hshift : ((fun j => binomial_distribution.success p_ a b (g.draws (g.pos + j))) ∘ Nat.succ)
        = fun j => binomial_distribution.success p_ a b (g.next.2.draws (g.next.2.pos + j)) := by
      funext j
      simp [Gen.next, Nat.add_assoc, Nat.add_comm 1 j]
    rw [hshift]
    split
    · rename_i h
      rw [ih]
      have h0 : binomial_distribution.success p_ a b (g.draws (g.pos + 0)) = true := by
        simpa [Gen.next] using h
      rw [if_pos h0]
      push_cast
      ring
    · rename_i h
      rw [ih]
      have h0 : ¬ binomial_distribution.success p_ a b (g.draws (g.pos + 0)) = true := by
        simpa [Gen.next] using h
      rw [if_neg h0]
      simp

/-- The sample of a binomial distribution with a non-negative trial count lies
between `0` and the trial count. -/
theorem binomial_call_bounds (d : binomial_distribution) (g : Gen) (ht : 0 ≤ d.t_) :
    0 ≤ (d.call g).1 ∧ (d.call g).1 ≤ d.t_ := by
  unfold binomial_distribution.call
  rw [trial_loop_count]
  have hle := List.countP_le_length
    (fun j => binomial_distribution.success d.p_ g.gmin g.gmax (g.draws (g.pos + j)))
    (l := List.range d.t_.toNat)
  rw [List.length_range] at hle
  have hcast : ((d.t_.toNat : Nat) : Int) = d.t_ := Int.toNat_of_nonneg ht
  constructor
  · omega
  · omega

/-- The generator after a binomial sample: the cursor has moved by the trial
count. -/
theorem binomial_call_gen (d : binomial_distribution) (g : Gen) :
    (d.call g).2 = { g with pos := g.pos + d.t_.toNat } := by
  unfold binomial_distribution.call
  rw [trial_loop_gen]

/-! ## Facts about the category loop of the multinomial distribution -/

/-- Storing at the index that follows a prefix replaces the element there. -/
theorem set_after_prefix (cs : List Int) (x v : Int) (rest : List Int) :
    (cs ++ x :: rest).set cs.length v = cs ++ v :: rest := by
  induction cs with
  | nil => rfl
  | cons c cs ih => simp [ih]

/-- The category loop fills the zero-initialised tail of `counts` with the counts
of `count_list`, one per iteration, and leaves the rest untouched. -/
theorem count_loop_eq (binom_p : List ℚ) (n m : Nat) (cs : List Int) (t_avail : Int) (g : Gen) :
    multinomial_distribution.count_loop binom_p n cs.length
        (cs ++ List.replicate (n + m) 0) t_avail g =
      (cs ++ (count_list binom_p n cs.length t_avail g).1 ++ List.replicate m 0,
        (count_list binom_p n cs.length t_avail g).2) := by
  induction n generalizing cs t_avail g with
  | zero => simp [multinomial_distribution.count_loop, count_list]
  | succ n ih =>
    simp only [multinomial_distribution.count_loop, count_list]
    have hrep : List.replicate (n + 1 + m) (0 : Int) = 0 :: List.replicate (n + m) 0 := by
      rw [show n + 1 + m = (n + m) + 1 by omega, List.replicate_succ]
    rw [hrep, set_after_prefix]
    have h := ih (cs ++ [(binomial_distribution.call
      { t_ := t_avail, p_ := binom_p.getD cs.length 0 } g).1])
    simp only [List.length_append, List.length_singleton, List.append_assoc,
      List.singleton_append] at h
    rw [h]
    simp

/-- The list of counts has one entry per visited category. -/
theorem count_list_length (binom_p : List ℚ) (n k : Nat) (t_avail : Int) (g : Gen) :
    (count_list binom_p n k t_avail g).1.length = n := by
  induction n generalizing k t_avail g with
  | zero => rfl
  | succ n ih => simp [count_list, ih]

/-- The counts and the trials left over add up to the trials available at the
start. -/
theorem count_list_sum (binom_p : List ℚ) (n k : Nat) (t_avail : Int) (g : Gen) :
    (count_list binom_p n k t_avail g).1.sum + (count_list binom_p n k t_avail g).2.1 =
      t_avail := by
  induction n generalizing k t_avail g with
  | zero => simp [count_list]
  | succ n ih =>
    simp only [count_list, List.sum_cons]
    have h := ih (k + 1) (t_avail - (binomial_distribution.call
      { t_ := t_avail, p_ := binom_p.getD k 0 } g).1)
      (binomial_distribution.call { t_ := t_avail, p_ := binom_p.getD k 0 } g).2
    omega

/-- With a non-negative number of trials available, no count is negative and the
number of trials left over is not negative either. -/
theorem count_list_nonneg (binom_p : List ℚ) (n k : Nat) (t_avail : Int) (g : Gen)
    (ht : 0 ≤ t_avail) :
    (∀ c ∈ (count_list binom_p n k t_avail g).1, 0 ≤ c) ∧
      0 ≤ (count_list binom_p n k t_avail g).2.1 := by
  induction n generalizing k t_avail g with
  | zero => simp [count_list, ht]
  | succ n ih =>
    have hb := binomial_call_bounds { t_ := t_avail, p_ := binom_p.getD k 0 } g ht
    have h := ih (k + 1) (t_avail - (binomial_distribution.call
      { t_ := t_avail, p_ := binom_p.getD k 0 } g).1)
      (binomial_distribution.call { t_ := t_avail, p_ := binom_p.getD k 0 } g).2
      (by have := hb.2; simp only at this; omega)
    simp only [count_list, List.mem_cons]
    refine ⟨?_, h.2⟩
    intro c hc
    rcases hc with rfl | hc
    · exact hb.1
    · exact h.1 c hc

/-- The sample of a multinomial distribution with at least one category: the
counts of `count_list` for the first `K_ - 1` categories, then the trials left
over. -/
theorem multinomial_call_eq (d : multinomial_distribution) (g : Gen) (hK : 1 ≤ d.K_) :
    d.call g =
      (some ((count_list d.binom_p_ (d.K_ - 1).toNat 0 d.t_ g).1 ++
          [(count_list d.binom_p_ (d.K_ - 1).toNat 0 d.t_ g).2.1]),
        (count_list d.binom_p_ (d.K_ - 1).toNat 0 d.t_ g).2.2) := by
  unfold multinomial_distribution.call
  rw [if_neg (by omega)]
  have hn : d.K_.toNat = (d.K_ - 1).toNat + 1 := by omega
  have h := count_loop_eq d.binom_p_ (d.K_ - 1).toNat 1 [] d.t_ g
  simp only [List.length_nil, List.nil_append] at h
  rw [hn]
  simp only []
  rw [h]
  have hlen := count_list_length d.binom_p_ (d.K_ - 1).toNat 0 d.t_ g
  have hset := set_after_prefix (count_list d.binom_p_ (d.K_ - 1).toNat 0 d.t_ g).1 0
    (count_list d.binom_p_ (d.K_ - 1).toNat 0 d.t_ g).2.1 []
  rw [hlen] at hset
  simp only [List.replicate_one]
  rw [hset]

/-- The generator after the category loop: only the cursor has moved, forwards,
and by no more than the full trial count for each visited category. -/
theorem count_list_gen (binom_p : List ℚ) (n k : Nat) (t_avail : Int) (g : Gen)
    (ht : 0 ≤ t_avail) :
    (count_list binom_p n k t_avail g).2.2.gmin = g.gmin ∧
      (count_list binom_p n k t_avail g).2.2.gmax = g.gmax ∧
      (count_list binom_p n k t_avail g).2.2.draws = g.draws ∧
      g.pos ≤ (count_list binom_p n k t_avail g).2.2.pos ∧
      (count_list binom_p n k t_avail g).2.2.pos ≤ g.pos + n * t_avail.toNat := by
  induction n generalizing k t_avail g with
  | zero => simp [count_list]
  | succ n ih =>
    have hb := binomial_call_bounds { t_ := t_avail, p_ := binom_p.getD k 0 } g ht
    have hg := binomial_call_gen { t_ := t_avail, p_ := binom_p.getD k 0 } g
    have h := ih (k + 1) (t_avail - (binomial_distribution.call
      { t_ := t_avail, p_ := binom_p.getD k 0 } g).1)
      (binomial_distribution.call { t_ := t_avail, p_ := binom_p.getD k 0 } g).2
      (by have := hb.2; simp only at this; omega)
    simp only [count_list]
    rw [hg] at h
    rw [hg]
    simp only at h hb ⊢
    obtain ⟨h1, h2, h3, h4, h5⟩ := h
    refine ⟨h1, h2, h3, by omega, ?_⟩
    have hmono : (t_avail - (binomial_distribution.call
        { t_ := t_avail, p_ := binom_p.getD k 0 } g).1).toNat ≤ t_avail.toNat := by
      omega
    have hmul := Nat.mul_le_mul_left n hmono
    rw [Nat.add_mul]
    omega

/-- With no trial available every count is zero, no trial is left over and the
generator is not touched. -/
theorem count_list_zero (binom_p : List ℚ) (n k : Nat) (g : Gen) :
    count_list binom_p n k 0 g = (List.replicate n 0, 0, g) := by
  induction n generalizing k with
  | zero => rfl
  | succ n ih =>
    simp [count_list, binomial_distribution.call, binomial_distribution.trial_loop, ih,
      List.replicate_succ]

/-- The sample generator `cyc_gen` keeps to its bounds. -/
theorem cyc_gen_well_formed : cyc_gen.well_formed := by
  refine ⟨by decide, ?_⟩
  intro n
  simp only [cyc_gen]
  omega

/-- The sample generator `top_gen` keeps to its bounds. -/
theorem top_gen_well_formed : top_gen.well_formed := by
  refine ⟨by decide, ?_⟩
  intro n
  simp [top_gen]

/-- The sample generator `bottom_gen` keeps to its bounds. -/
theorem bottom_gen_well_formed : bottom_gen.well_formed := by
  refine ⟨by decide, ?_⟩
  intro n
  simp [bottom_gen]

/-- The weights `1, 0` are fit for a multinomial distribution. -/
theorem valid_weights_one_zero : valid_weights [1, 0] := by
  refine ⟨by simp, ?_⟩
  intro k hk
  simp only [List.length_cons, List.length_nil] at hk
  have hk0 : k = 0 := by omega
  subst hk0
  norm_num

/-- Three equal weights are fit for a multinomial distribution. -/
theorem valid_weights_ones : valid_weights [1, 1, 1] := by
  refine ⟨by simp, ?_⟩
  intro k hk
  simp only [List.length_cons, List.length_nil] at hk
  have hk2 : k = 0 ∨ k = 1 := by omega
  rcases hk2 with rfl | rfl <;> norm_num

/-! ## Facts about the running sums and the scan of the categorical distribution -/

/-- Entry `i` of the running sums after the first element: the carried sum plus
the first `i + 1` of the remaining weights. -/
theorem partial_sum_loop_getElem (ws : List ℚ) (acc : ℚ) (i : Nat) (hi : i < ws.length) :
    (partial_sum_loop ws acc)[i]? = some (acc + (ws.take (i + 1)).sum) := by
  induction ws generalizing acc i with
  | nil => simp at hi
  | cons w ws ih =>
    cases i with
    | zero => simp [partial_sum_loop]
    | succ i =>
      simp only [List.length_cons, Nat.add_lt_add_iff_right] at hi
      simp only [partial_sum_loop, List.getElem?_cons_succ, List.take_succ_cons, List.sum_cons]
      rw [ih (acc + w) i hi, add_assoc]

/-- Entry `i` of the running sums is the sum of the weights `0 .. i`. -/
theorem partial_sum_getElem (weights : List ℚ) (i : Nat) (hi : i < weights.length) :
    (partial_sum weights)[i]? = some ((weights.take (i + 1)).sum) := by
  cases weights with
  | nil => simp at hi
  | cons w ws =>
    cases i with
    | zero => simp [partial_sum]
    | succ i =>
      simp only [List.length_cons, Nat.add_lt_add_iff_right] at hi
      simp only [partial_sum, List.getElem?_cons_succ, List.take_succ_cons, List.sum_cons]
      exact partial_sum_loop_getElem ws w i hi

/-- The running sums after the first element are as many as the weights. -/
theorem partial_sum_loop_length (ws : List ℚ) (acc : ℚ) :
    (partial_sum_loop ws acc).length = ws.length := by
  induction ws generalizing acc with
  | nil => rfl
  | cons w ws ih => simp [partial_sum_loop, ih]

/-- The running sums are as many as the weights. -/
theorem partial_sum_length (weights : List ℚ) :
    (partial_sum weights).length = weights.length := by
  cases weights with
  | nil => rfl
  | cons w ws => simp [partial_sum, partial_sum_loop_length]

/-- The last running sum of a non-empty weight vector is the sum of all weights. -/
theorem partial_sum_getLast (weights : List ℚ) (hK : 1 ≤ weights.length) :
    (partial_sum weights).getLast? = some weights.sum := by
  rw [List.getLast?_eq_getElem?, partial_sum_length,
    partial_sum_getElem weights (weights.length - 1) (by omega)]
  have hn : weights.length - 1 + 1 = weights.length := by omega
  rw [hn, List.take_length]

/-- Entry `i` of the running sums, read the way the scan reads it. -/
theorem partial_sum_getD (weights : List ℚ) (i : Nat) (hi : i < weights.length) :
    (partial_sum weights).getD i 0 = (weights.take (i + 1)).sum := by
  rw [List.getD_eq_getElem?_getD, partial_sum_getElem weights i hi]
  rfl

/-- An index returned by the scan lies in the scanned range, satisfies the test,
and no earlier index of the range does. -/
theorem scan_loop_some (partsums : List ℚ) (discr : ℚ) (n i r : Nat)
    (h : categorical_distribution.scan_loop partsums discr n i = some r) :
    i ≤ r ∧ r < i + n ∧ discr ≤ partsums.getD r 0 ∧
      ∀ j, i ≤ j → j < r → partsums.getD j 0 < discr := by
  induction n generalizing i with
  | zero => simp [categorical_distribution.scan_loop] at h
  | succ n ih =>
    simp only [categorical_distribution.scan_loop] at h
    split at h
    · rename_i hle
      simp only [Option.some.injEq] at h
      subst h
      exact ⟨le_refl _, by omega, hle, fun j h1 h2 => by omega⟩
    · rename_i hnle
      obtain ⟨h1, h2, h3, h4⟩ := ih (i + 1) h
      refine ⟨by omega, by omega, h3, ?_⟩
      intro j hj1 hj2
      rcases Nat.eq_or_lt_of_le hj1 with rfl | hlt
      · exact lt_of_not_le hnle
      · exact h4 j hlt hj2

/-- The scan returns an index as soon as some index of the scanned range
satisfies the test. -/
theorem scan_loop_finds (partsums : List ℚ) (discr : ℚ) (n i j : Nat)
    (hij : i ≤ j) (hjn : j < i + n) (hj : discr ≤ partsums.getD j 0) :
    ∃ r, categorical_distribution.scan_loop partsums discr n i = some r := by
  induction n generalizing i with
  | zero => omega
  | succ n ih =>
    simp only [categorical_distribution.scan_loop]
    split
    · exact ⟨i, rfl⟩
    · rename_i hnle
      rcases Nat.eq_or_lt_of_le hij with rfl | hlt
      · exact absurd hj hnle
      · exact ih (i + 1) hlt (by omega)

/-- A raw value between the bounds `min < max` is normalised into `[0, 1]`. -/
theorem unif_bounds (g_min g_max raw : Int) (hb : g_min < g_max)
    (hlo : g_min ≤ raw) (hhi : raw ≤ g_max) :
    0 ≤ categorical_distribution.unif g_min g_max raw ∧
      categorical_distribution.unif g_min g_max raw ≤ 1 := by
  unfold categorical_distribution.unif
  have hden : (0 : ℚ) < ((g_max - g_min : Int) : ℚ) := by
    have : (0 : Int) < g_max - g_min := by omega
    exact_mod_cast this
  have hnum : (0 : ℚ) ≤ ((raw - g_min : Int) : ℚ) := by
    have : (0 : Int) ≤ raw - g_min := by omega
    exact_mod_cast this
  have hle : ((raw - g_min : Int) : ℚ) ≤ ((g_max - g_min : Int) : ℚ) := by
    have : raw - g_min ≤ g_max - g_min := by omega
    exact_mod_cast this
  exact ⟨div_nonneg hnum hden.le, (div_le_one hden).mpr hle⟩

/-- The sample of a categorical distribution over a non-empty weight vector: the
scan of the running sums for the scaled draw. -/
theorem categorical_call_eq (weights : List ℚ) (g : Gen) (hK : 1 ≤ weights.length) :
    ((categorical_distribution.ctor weights).call g).1 =
      categorical_distribution.scan_loop (partial_sum weights)
        (categorical_distribution.unif g.gmin g.gmax (g.draws g.pos) * weights.sum)
        weights.length 0 := by
  simp only [categorical_distribution.call, categorical_distribution.ctor,
    partial_sum_getLast weights hK, Gen.next]

/-- For non-negative weights and a raw value between the bounds `min < max`, the
scaled draw does not exceed the total mass. -/
theorem discr_le_total (weights : List ℚ) (g_min g_max raw : Int)
    (hnn : ∀ w ∈ weights, 0 ≤ w) (hb : g_min < g_max)
    (hlo : g_min ≤ raw) (hhi : raw ≤ g_max) :
    categorical_distribution.unif g_min g_max raw * weights.sum ≤ weights.sum := by
  have hu := unif_bounds g_min g_max raw hb hlo hhi
  have hs : 0 ≤ weights.sum := List.sum_nonneg hnn
  calc categorical_distribution.unif g_min g_max raw * weights.sum
      ≤ 1 * weights.sum := mul_le_mul_of_nonneg_right hu.2 hs
    _ = weights.sum := one_mul _

/-- For a non-empty vector of non-negative weights and a raw value between the
bounds `min < max`, the scan of the running sums returns an index. -/
theorem categorical_scan_finds (weights : List ℚ) (g : Gen)
    (hK : 1 ≤ weights.length) (hnn : ∀ w ∈ weights, 0 ≤ w)
    (hb : g.gmin < g.gmax) (hlo : g.gmin ≤ g.draws g.pos) (hhi : g.draws g.pos ≤ g.gmax) :
    ∃ r, categorical_distribution.scan_loop (partial_sum weights)
      (categorical_distribution.unif g.gmin g.gmax (g.draws g.pos) * weights.sum)
      weights.length 0 = some r := by
  have hlast : categorical_distribution.unif g.gmin g.gmax (g.draws g.pos) * weights.sum ≤
      (partial_sum weights).getD (weights.length - 1) 0 := by
    rw [partial_sum_getD weights (weights.length - 1) (by omega)]
    have hn : weights.length - 1 + 1 = weights.length := by omega
    rw [hn, List.take_length]
    exact discr_le_total weights g.gmin g.gmax (g.draws g.pos) hnn hb hlo hhi
  exact scan_loop_finds (partial_sum weights) _ weights.length 0
    (weights.length - 1) (Nat.zero_le _) (by omega) hlast

/-! ## Facts about the constructor of the multinomial distribution -/

/-- The first constructor loop adds the sum of the weights to its initial value. -/
theorem sum_loop_eq (ws : List ℚ) (acc : ℚ) :
    multinomial_distribution.sum_loop ws acc = acc + ws.sum := by
  induction ws generalizing acc with
  | nil => simp [multinomial_distribution.sum_loop]
  | cons w ws ih =>
    simp only [multinomial_distribution.sum_loop, List.sum_cons]
    rw [ih, add_assoc]

/-- Entry `k` written by the second constructor loop: weight `k` over what is left
of `sum_weights` once the carried sum and the weights before `k` are taken off. -/
theorem binom_p_loop_getElem (sum_weights : ℚ) (ws : List ℚ) (part : ℚ) (k : Nat)
    (hk : k < ws.length) :
    (multinomial_distribution.binom_p_loop sum_weights ws part)[k]? =
      some (ws.getD k 0 / (sum_weights - (part + (ws.take k).sum))) := by
  induction ws generalizing part k with
  | nil => simp at hk
  | cons w ws ih =>
    cases k with
    | zero => simp [multinomial_distribution.binom_p_loop]
    | succ k =>
      simp only [List.length_cons, Nat.add_lt_add_iff_right] at hk
      simp only [multinomial_distribution.binom_p_loop, List.getElem?_cons_succ,
        List.take_succ_cons, List.sum_cons, List.getD_cons_succ]
      rw [ih (part + w) k hk, add_assoc]

/-! ## Facts about the code over the arithmetic of the machine -/

/-- Over the exact rationals the trial loop of the machine is the trial loop of
the exact embedding. -/
theorem machine_trial_loop_exact (p_ : ℚ) (a b : Int) (n : Nat) (acc : Int) (g : Gen) :
    machine.binomial_distribution.trial_loop exact_arith p_ a b n acc g =
      binomial_distribution.trial_loop p_ a b n acc g := by
  induction n generalizing acc g with
  | zero => rfl
  | succ n ih =>
    simp only [machine.binomial_distribution.trial_loop, binomial_distribution.trial_loop, ih]
    rfl

/-- Over the exact rationals the running sums of the machine are the running
sums of the exact embedding. -/
theorem machine_partial_sum_exact (weights : List ℚ) :
    machine.partial_sum exact_arith weights = partial_sum weights := by
  have hloop : ∀ (ws : List ℚ) (acc : ℚ),
      machine.partial_sum_loop exact_arith ws acc = partial_sum_loop ws acc := by
    intro ws
    induction ws with
    | nil => intro acc; rfl
    | cons w ws ih =>
      intro acc
      simp only [machine.partial_sum_loop, partial_sum_loop]
      rw [ih]
      rfl
  cases weights with
  | nil => rfl
  | cons w ws =>
    simp only [machine.partial_sum, partial_sum]
    rw [hloop]

/-- Over the exact rationals the scan of the machine is the scan of the exact
embedding. -/
theorem machine_scan_loop_exact (partsums : List ℚ) (discr : ℚ) (n i : Nat) :
    machine.categorical_distribution.scan_loop exact_arith partsums discr n i =
      categorical_distribution.scan_loop partsums discr n i := by
  induction n generalizing i with
  | zero => rfl
  | succ n ih =>
    simp only [machine.categorical_distribution.scan_loop, categorical_distribution.scan_loop, ih]
    simp [exact_arith]

/-- Over the exact rationals the binomial sample of the machine is the sample of
the exact embedding. -/
theorem machine_binomial_call_exact (t : Int) (p : ℚ) (g : Gen) :
    (machine.binomial_distribution.mk t p : machine.binomial_distribution exact_arith).call g =
      (binomial_distribution.mk t p).call g := by
  unfold machine.binomial_distribution.call binomial_distribution.call
  exact machine_trial_loop_exact p g.gmin g.gmax t.toNat 0 g

/-- Over the exact rationals the categorical sample of the machine is the sample
of the exact embedding. -/
theorem machine_categorical_call_exact (weights : List ℚ) (g : Gen) :
    (machine.categorical_distribution.ctor exact_arith weights).call g =
      (categorical_distribution.ctor weights).call g := by
  simp only [machine.categorical_distribution.call, machine.categorical_distribution.ctor,
    categorical_distribution.call, categorical_distribution.ctor, machine_partial_sum_exact]
  cases (partial_sum weights).getLast? with
  | none => rfl
  | some sum_weights =>
    simp only [machine_scan_loop_exact]
    rfl

/-- The counter after `n` iterations of the trial loop, over any arithmetic: its
initial value plus the number of draws among the next `n` that pass the test of
the machine. -/
theorem machine_trial_loop_count (A : Arith) (p_ : A.D) (a b : Int) (n : Nat) (acc : Int)
    (g : Gen) :
    (machine.binomial_distribution.trial_loop A p_ a b n acc g).1 =
      acc + ((List.range n).countP
        (fun j => machine.binomial_distribution.success A p_ a b (g.draws (g.pos + j))) : Nat) := by
  induction n generalizing acc g with
  | zero => simp [machine.binomial_distribution.trial_loop]
  | succ n ih =>
    simp only [machine.binomial_distribution.trial_loop]
    rw [List.range_succ_eq_map, List.countP_cons, List.countP_map]
    have hshift : ((fun j => machine.binomial_distribution.success A p_ a b
          (g.draws (g.pos + j))) ∘ Nat.succ)
        = fun j => machine.binomial_distribution.success A p_ a b
          (g.next.2.draws (g.next.2.pos + j)) := by
      funext j
      simp [Gen.next, Nat.add_assoc, Nat.add_comm 1 j]
    rw [hshift]
    split
    · rename_i h
      rw [ih]
      have h0 : machine.binomial_distribution.success A p_ a b (g.draws (g.pos + 0)) = true := by
        simpa [Gen.next] using h
      rw [if_pos h0]
      push_cast
      ring
    · rename_i h
      rw [ih]
      have h0 : ¬ machine.binomial_distribution.success A p_ a b (g.draws (g.pos + 0)) = true := by
        simpa [Gen.next] using h
      rw [if_neg h0]
      simp

/-- Entry `i` of the running sums after the first element, over any arithmetic:
the carried sum with the first `i + 1` of the remaining weights added to it, one
at a time. -/
theorem machine_partial_sum_loop_getElem (A : Arith) (ws : List A.D) (acc : A.D) (i : Nat)
    (hi : i < ws.length) :
    (machine.partial_sum_loop A ws acc)[i]? = some ((ws.take (i + 1)).foldl A.add acc) := by
  induction ws generalizing acc i with
  | nil => simp at hi
  | cons w ws ih =>
    cases i with
    | zero => simp [machine.partial_sum_loop]
    | succ i =>
      simp only [List.length_cons, Nat.add_lt_add_iff_right] at hi
      simp only [machine.partial_sum_loop, List.getElem?_cons_succ, List.take_succ_cons,
        List.foldl_cons]
      exact ih (A.add acc w) i hi

/-- Entry `i` of the running sums, over any arithmetic: the weights `0 .. i` as
the machine adds them from the left. -/
theorem machine_partial_sum_getElem (A : Arith) (weights : List A.D) (i : Nat)
    (hi : i < weights.length) :
    (machine.partial_sum A weights)[i]? = some (left_sum A (weights.take (i + 1))) := by
  cases weights with
  | nil => simp at hi
  | cons w ws =>
    cases i with
    | zero => simp [machine.partial_sum, left_sum]
    | succ i =>
      simp only [List.length_cons, Nat.add_lt_add_iff_right] at hi
      simp only [machine.partial_sum, List.getElem?_cons_succ, List.take_succ_cons, left_sum]
      exact machine_partial_sum_loop_getElem A ws w i hi

/-- The running sums after the first element are as many as the weights, over
any arithmetic. -/
theorem machine_partial_sum_loop_length (A : Arith) (ws : List A.D) (acc : A.D) :
    (machine.partial_sum_loop A ws acc).length = ws.length := by
  induction ws generalizing acc with
  | nil => rfl
  | cons w ws ih => simp [machine.partial_sum_loop, ih]

/-- The running sums are as many as the weights, over any arithmetic. -/
theorem machine_partial_sum_length (A : Arith) (weights : List A.D) :
    (machine.partial_sum A weights).length = weights.length := by
  cases weights with
  | nil => rfl
  | cons w ws => simp [machine.partial_sum, machine_partial_sum_loop_length]

/-- The last running sum of a non-empty weight vector is the sum of all weights
as the machine adds them from the left. -/
theorem machine_partial_sum_getLast (A : Arith) (weights : List A.D)
    (hK : 1 ≤ weights.length) :
    (machine.partial_sum A weights).getLast? = some (left_sum A weights) := by
  rw [List.getLast?_eq_getElem?, machine_partial_sum_length,
    machine_partial_sum_getElem A weights (weights.length - 1) (by omega)]
  have hn : weights.length - 1 + 1 = weights.length := by omega
  rw [hn, List.take_length]

/-- Entry `i` of the running sums, read the way the scan reads it. -/
theorem machine_partial_sum_getD (A : Arith) (weights : List A.D) (i : Nat)
    (hi : i < weights.length) :
    (machine.partial_sum A weights).getD i A.zero = left_sum A (weights.take (i + 1)) := by
  rw [List.getD_eq_getElem?_getD, machine_partial_sum_getElem A weights i hi]
  rfl

/-- When adding a non-negative value to a non-negative value never gives less
and never turns negative, each running sum after a non-negative carried sum is
at most the next one. -/
theorem machine_partial_sum_loop_step (A : Arith)
    (hadd : ∀ a w, A.le A.zero a = true → A.le A.zero w = true →
      A.le a (A.add a w) = true ∧ A.le A.zero (A.add a w) = true)
    (ws : List A.D) (acc : A.D) (hacc : A.le A.zero acc = true)
    (hnn : ∀ w ∈ ws, A.le A.zero w = true) (i : Nat) (hi : i < ws.length) :
    A.le ((acc :: machine.partial_sum_loop A ws acc).getD i A.zero)
      ((acc :: machine.partial_sum_loop A ws acc).getD (i + 1) A.zero) = true := by
  induction ws generalizing acc i with
  | nil => simp at hi
  | cons w ws ih =>
    have hw : A.le A.zero w = true := hnn w (List.mem_cons_self w ws)
    have hrest : ∀ x ∈ ws, A.le A.zero x = true :=
      fun x hx => hnn x (List.mem_cons_of_mem w hx)
    cases i with
    | zero =>
      simp only [machine.partial_sum_loop, List.getD_cons_zero, List.getD_cons_succ]
      exact (hadd acc w hacc hw).1
    | succ i =>
      simp only [List.length_cons, Nat.add_lt_add_iff_right] at hi
      simp only [machine.partial_sum_loop, List.getD_cons_succ]
      exact ih (A.add acc w) (hadd acc w hacc hw).2 hrest i hi

/-- An index returned by the scan lies in the scanned range and passes the test
of the machine, and no earlier index of the range does; over any arithmetic. -/
theorem machine_scan_loop_some (A : Arith) (partsums : List A.D) (discr : A.D) (n i r : Nat)
    (h : machine.categorical_distribution.scan_loop A partsums discr n i = some r) :
    i ≤ r ∧ r < i + n ∧ A.le discr (partsums.getD r A.zero) = true ∧
      ∀ j, i ≤ j → j < r → A.le discr (partsums.getD j A.zero) = false := by
  induction n generalizing i with
  | zero => simp [machine.categorical_distribution.scan_loop] at h
  | succ n ih =>
    simp only [machine.categorical_distribution.scan_loop] at h
    split at h
    · rename_i hle
      simp only [Option.some.injEq] at h
      subst h
      exact ⟨le_refl _, by omega, hle, fun j h1 h2 => by omega⟩
    · rename_i hnle
      obtain ⟨h1, h2, h3, h4⟩ := ih (i + 1) h
      refine ⟨by omega, by omega, h3, ?_⟩
      intro j hj1 hj2
      rcases Nat.eq_or_lt_of_le hj1 with rfl | hlt
      · simpa using hnle
      · exact h4 j hlt hj2

/-- The scan returns an index as soon as some index of the scanned range passes
the test of the machine; over any arithmetic. -/
theorem machine_scan_loop_finds (A : Arith) (partsums : List A.D) (discr : A.D) (n i j : Nat)
    (hij : i ≤ j) (hjn : j < i + n) (hj : A.le discr (partsums.getD j A.zero) = true) :
    ∃ r, machine.categorical_distribution.scan_loop A partsums discr n i = some r := by
  induction n generalizing i with
  | zero => omega
  | succ n ih =>
    simp only [machine.categorical_distribution.scan_loop]
    split
    · exact ⟨i, rfl⟩
    · rename_i hnle
      rcases Nat.eq_or_lt_of_le hij with rfl | hlt
      · exact absurd hj hnle
      · exact ih (i + 1) hlt (by omega)

/-- The sample of a categorical distribution over a non-empty weight vector, over
any arithmetic: the scan of the running sums for the scaled draw. -/
theorem machine_categorical_call_eq (A : Arith) (weights : List A.D) (g : Gen)
    (hK : 1 ≤ weights.length) :
    ((machine.categorical_distribution.ctor A weights).call g).1 =
      machine.categorical_distribution.scan_loop A (machine.partial_sum A weights)
        (A.mul (A.div (A.of_diff (g.draws g.pos) g.gmin) (A.of_diff g.gmax g.gmin))
          (left_sum A weights))
        weights.length 0 := by
  simp only [machine.categorical_distribution.call, machine.categorical_distribution.ctor,
    machine_partial_sum_getLast A weights hK, Gen.next, machine.categorical_distribution.unif]

/-- In the exact rationals, adding a non-negative value to a non-negative value
gives neither less nor a negative value. -/
theorem exact_arith_add_nonneg : ∀ a w, exact_arith.le exact_arith.zero a = true →
    exact_arith.le exact_arith.zero w = true →
    exact_arith.le a (exact_arith.add a w) = true ∧
      exact_arith.le exact_arith.zero (exact_arith.add a w) = true := by
  intro a w ha hw
  simp only [exact_arith, decide_eq_true_eq] at ha hw ⊢
  constructor <;> linarith

/-- In the exact rationals `<=` is transitive. -/
theorem exact_arith_le_trans : ∀ a b c, exact_arith.le a b = true →
    exact_arith.le b c = true → exact_arith.le a c = true := by
  intro a b c hab hbc
  simp only [exact_arith, decide_eq_true_eq] at hab hbc ⊢
  exact le_trans hab hbc

/-- The weights `1, 2, 3` are not negative in the exact rationals. -/
theorem exact_arith_weights_nonneg :
    ∀ w ∈ ([1, 2, 3] : List ℚ), exact_arith.le exact_arith.zero w = true := by
  intro w hw
  simp only [List.mem_cons, List.mem_singleton, List.not_mem_nil, or_false] at hw
  simp only [exact_arith, decide_eq_true_eq]
  rcases hw with rfl | rfl | rfl <;> norm_num

/-! ## Settled statements -/

/-- C1. For every trial count `t ≥ 0`, every weight vector of length `K ≥ 1` that is
fit for a multinomial distribution and every generator keeping to its bounds
`min < max`, `multinomial_distribution::operator()` returns a vector of exactly
`K` entries, none negative, whose sum is exactly `t`. -/
theorem multinomial_sample_shape (t : Int) (weights : List ℚ) (g : Gen)
    (ht : 0 ≤ t) (hK : 1 ≤ weights.length) (_hw : valid_weights weights)
    (_hg : g.well_formed) :
    ∃ counts, ((multinomial_distribution.ctor t weights).call g).1 = some counts ∧
      counts.length = weights.length ∧ (∀ c ∈ counts, 0 ≤ c) ∧ counts.sum = t := by
  have hK1 : (1 : Int) ≤ (multinomial_distribution.ctor t weights).K_ := by
    simp only [multinomial_distribution.ctor]
    omega
  rw [multinomial_call_eq _ g hK1]
  refine ⟨_, rfl, ?_, ?_, ?_⟩
  · simp only [List.length_append, count_list_length, List.length_singleton,
      multinomial_distribution.ctor]
    omega
  · intro c hc
    have hnn := count_list_nonneg (multinomial_distribution.ctor t weights).binom_p_
      ((multinomial_distribution.ctor t weights).K_ - 1).toNat 0 t g ht
    rw [List.mem_append, List.mem_singleton] at hc
    rcases hc with hc | rfl
    · exact hnn.1 c hc
    · exact hnn.2
  · rw [List.sum_append, List.sum_singleton]
    exact count_list_sum _ _ _ _ _

/-- Witness of C1: five trials over three equal weights, drawn from `cyc_gen`. -/
theorem multinomial_sample_shape_witness :
    valid_weights [1, 1, 1] ∧ cyc_gen.well_formed ∧
      ∃ counts, ((multinomial_distribution.ctor 5 [1, 1, 1]).call cyc_gen).1 = some counts ∧
        counts.length = [(1 : ℚ), 1, 1].length ∧ (∀ c ∈ counts, 0 ≤ c) ∧ counts.sum = 5 :=
  ⟨valid_weights_ones, cyc_gen_well_formed,
    multinomial_sample_shape 5 [1, 1, 1] cyc_gen (by decide) (by decide)
      valid_weights_ones cyc_gen_well_formed⟩

/-- C2. For every trial count `t ≥ 0`, every probability `p` and every generator, the
value returned by `binomial_distribution::operator()` lies between the
distribution's `min()`, which is `0`, and its `max()`, which is `t`. -/
theorem binomial_sample_range (t : Int) (p : ℚ) (g : Gen) (ht : 0 ≤ t) :
    (binomial_distribution.mk t p).min = 0 ∧ (binomial_distribution.mk t p).max = t ∧
      (binomial_distribution.mk t p).min ≤ ((binomial_distribution.mk t p).call g).1 ∧
      ((binomial_distribution.mk t p).call g).1 ≤ (binomial_distribution.mk t p).max := by
  have hb := binomial_call_bounds (binomial_distribution.mk t p) g ht
  exact ⟨rfl, rfl, hb.1, hb.2⟩

/-- Witness of C2: five trials of probability one half, drawn from `cyc_gen`. -/
theorem binomial_sample_range_witness :
    (0 : Int) ≤ ((binomial_distribution.mk 5 (1 / 2)).call cyc_gen).1 ∧
      ((binomial_distribution.mk 5 (1 / 2)).call cyc_gen).1 ≤ 5 :=
  (binomial_sample_range 5 (1 / 2) cyc_gen (by decide)).2.2

/-- C4. For every trial count `t ≥ 0`, every probability `p` and every generator
state, one call of `binomial_distribution::operator()` advances the generator by
exactly `t` draws and changes nothing else of it. -/
theorem binomial_draw_count (t : Int) (p : ℚ) (g : Gen) (ht : 0 ≤ t) :
    ((binomial_distribution.mk t p).call g).2.gmin = g.gmin ∧
      ((binomial_distribution.mk t p).call g).2.gmax = g.gmax ∧
      ((binomial_distribution.mk t p).call g).2.draws = g.draws ∧
      (((binomial_distribution.mk t p).call g).2.pos : Int) = g.pos + t := by
  rw [binomial_call_gen]
  refine ⟨rfl, rfl, rfl, ?_⟩
  simp only
  omega

/-- Witness of C4: five trials of probability one half, drawn from `cyc_gen`. -/
theorem binomial_draw_count_witness :
    (((binomial_distribution.mk 5 (1 / 2)).call cyc_gen).2.pos : Int) = cyc_gen.pos + 5 :=
  (binomial_draw_count 5 (1 / 2) cyc_gen (by decide)).2.2.2

/-- C5, as stated, fails: one trial over three equal weights, drawn from `top_gen`,
is a valid input, and the call consumes two draws, more than the trial count. -/
theorem multinomial_draws_exceed_t :
    valid_weights [1, 1, 1] ∧ top_gen.well_formed ∧
      ¬ ((((multinomial_distribution.ctor 1 [1, 1, 1]).call top_gen).2.pos : Int)
          - top_gen.pos ≤ 1) := by
  refine ⟨valid_weights_ones, top_gen_well_formed, ?_⟩
  norm_num [multinomial_distribution.call, multinomial_distribution.ctor,
    multinomial_distribution.count_loop, multinomial_distribution.binom_p_loop,
    multinomial_distribution.sum_loop, binomial_distribution.call,
    binomial_distribution.trial_loop, binomial_distribution.success, Gen.next, top_gen]

/-- C5, amended. For every trial count `t ≥ 0`, every weight vector of length `K ≥ 1`
fit for a multinomial distribution and every generator, one call of
`multinomial_distribution::operator()` only moves the generator forwards, and
by at most `(K - 1) * t` draws. -/
theorem multinomial_draws_bound (t : Int) (weights : List ℚ) (g : Gen)
    (ht : 0 ≤ t) (hK : 1 ≤ weights.length) (_hw : valid_weights weights) :
    g.pos ≤ ((multinomial_distribution.ctor t weights).call g).2.pos ∧
      (((multinomial_distribution.ctor t weights).call g).2.pos : Int) - g.pos ≤
        ((weights.length : Int) - 1) * t := by
  have hK1 : (1 : Int) ≤ (multinomial_distribution.ctor t weights).K_ := by
    simp only [multinomial_distribution.ctor]
    omega
  rw [multinomial_call_eq _ g hK1]
  have hgen := count_list_gen (multinomial_distribution.ctor t weights).binom_p_
    ((multinomial_distribution.ctor t weights).K_ - 1).toNat 0 t g ht
  obtain ⟨-, -, -, hlo, hhi⟩ := hgen
  simp only [multinomial_distribution.ctor] at hlo hhi ⊢
  refine ⟨hlo, ?_⟩
  have hn : (((weights.length : Int) - 1).toNat : Int) = (weights.length : Int) - 1 := by
    omega
  have htn : ((t.toNat : Nat) : Int) = t := Int.toNat_of_nonneg ht
  have hcast : ((((weights.length : Int) - 1).toNat * t.toNat : Nat) : Int)
      = ((weights.length : Int) - 1) * t := by
    rw [Nat.cast_mul, hn, htn]
  omega

/-- Witness of C5, amended: the input of the counterexample, where the bound
`(3 - 1) * 1` is met. -/
theorem multinomial_draws_bound_witness :
    top_gen.pos ≤ ((multinomial_distribution.ctor 1 [1, 1, 1]).call top_gen).2.pos ∧
      (((multinomial_distribution.ctor 1 [1, 1, 1]).call top_gen).2.pos : Int)
          - top_gen.pos ≤ (([(1 : ℚ), 1, 1].length : Int) - 1) * 1 :=
  multinomial_draws_bound 1 [1, 1, 1] top_gen (by decide) (by decide) valid_weights_ones

/-- C6. With trial count `0`, for every probability `p`, every weight vector of
length `K ≥ 1` and every generator, `binomial_distribution(0, p)` returns `0` and
`multinomial_distribution(0, weights)` returns the vector of `K` zeros. -/
theorem zero_trials_sample (p : ℚ) (weights : List ℚ) (g : Gen)
    (hK : 1 ≤ weights.length) :
    ((binomial_distribution.mk 0 p).call g).1 = 0 ∧
      ((multinomial_distribution.ctor 0 weights).call g).1 =
        some (List.replicate weights.length 0) := by
  constructor
  · rfl
  · have hK1 : (1 : Int) ≤ (multinomial_distribution.ctor 0 weights).K_ := by
      simp only [multinomial_distribution.ctor]
      omega
    rw [multinomial_call_eq _ g hK1]
    have hz : (multinomial_distribution.ctor 0 weights).t_ = 0 := rfl
    rw [hz, count_list_zero]
    simp only [multinomial_distribution.ctor]
    have hn : weights.length = ((weights.length : Int) - 1).toNat + 1 := by omega
    rw [← List.replicate_succ' , ← hn]

/-- Witness of C6: probability one half and three equal weights, drawn from
`cyc_gen`. -/
theorem zero_trials_sample_witness :
    ((binomial_distribution.mk 0 (1 / 2)).call cyc_gen).1 = 0 ∧
      ((multinomial_distribution.ctor 0 [1, 1, 1]).call cyc_gen).1 = some [0, 0, 0] :=
  zero_trials_sample (1 / 2) [1, 1, 1] cyc_gen (by decide)

/-- C3. For every weight vector of length `K ≥ 1` with no negative weight and at
least one positive weight, and every raw draw between the bounds `min < max`,
`categorical_distribution::operator()` finds a matching running sum and returns
an index `i` with `0 ≤ i < K`, between the distribution's `min()` and `max()`;
the end of the scan loop is not reached. -/
theorem categorical_index_in_range (weights : List ℚ) (g : Gen)
    (hK : 1 ≤ weights.length) (hnn : ∀ w ∈ weights, 0 ≤ w) (_hpos : ∃ w ∈ weights, 0 < w)
    (hb : g.gmin < g.gmax) (hlo : g.gmin ≤ g.draws g.pos) (hhi : g.draws g.pos ≤ g.gmax) :
    ∃ i : Nat, ((categorical_distribution.ctor weights).call g).1 = some i ∧
      i < weights.length ∧
      (categorical_distribution.ctor weights).min ≤ (i : Int) ∧
      (i : Int) < (categorical_distribution.ctor weights).max := by
  rw [categorical_call_eq weights g hK]
  obtain ⟨r, hr⟩ := categorical_scan_finds weights g hK hnn hb hlo hhi
  have hspec := scan_loop_some _ _ _ _ _ hr
  refine ⟨r, hr, by omega, ?_, ?_⟩
  · simp [categorical_distribution.min]
  · simp only [categorical_distribution.max, categorical_distribution.ctor]
    omega

/-- Witness of C3: weights `1, 2, 3` and the first draw of `cyc_gen`. -/
theorem categorical_index_in_range_witness :
    ∃ i : Nat, ((categorical_distribution.ctor [1, 2, 3]).call cyc_gen).1 = some i ∧
      i < [(1 : ℚ), 2, 3].length ∧
      (categorical_distribution.ctor [1, 2, 3]).min ≤ (i : Int) ∧
      (i : Int) < (categorical_distribution.ctor [1, 2, 3]).max :=
  categorical_index_in_range [1, 2, 3] cyc_gen (by decide) (by simp) ⟨1, by simp⟩
    (by decide) (by decide) (by decide)

/-- C7. With a single category of weight `w > 0`, for every `t ≥ 0` and every
generator keeping to its bounds `min < max`, `categorical_distribution([w])`
returns `0` and `multinomial_distribution(t, [w])` returns the one-element vector
`[t]`. -/
theorem single_category_sample (w : ℚ) (t : Int) (g : Gen) (hw : 0 < w) (_ht : 0 ≤ t)
    (hg : g.well_formed) :
    ((categorical_distribution.ctor [w]).call g).1 = some 0 ∧
      ((multinomial_distribution.ctor t [w]).call g).1 = some [t] := by
  constructor
  · rw [categorical_call_eq [w] g (by simp)]
    have hle := discr_le_total [w] g.gmin g.gmax (g.draws g.pos)
      (by intro x hx; rw [List.mem_singleton] at hx; rw [hx]; exact hw.le)
      hg.1 (hg.2 g.pos).1 (hg.2 g.pos).2
    simp only [List.sum_cons, List.sum_nil, add_zero] at hle
    simp [categorical_distribution.scan_loop, partial_sum, hle]
  · rw [multinomial_call_eq _ g (by simp [multinomial_distribution.ctor])]
    simp [multinomial_distribution.ctor, count_list]

/-- Witness of C7: weight `2`, five trials, drawn from `cyc_gen`. -/
theorem single_category_sample_witness :
    ((categorical_distribution.ctor [2]).call cyc_gen).1 = some 0 ∧
      ((multinomial_distribution.ctor 5 [2]).call cyc_gen).1 = some [5] :=
  single_category_sample 2 5 cyc_gen (by norm_num) (by decide) cyc_gen_well_formed

/-- C8. For every weight vector of length `K ≥ 1` with no negative weight and one
positive weight, and every raw draw between the bounds `min < max`, with
`discr = ((raw - min) / (max - min)) * total_mass` as the machine computes it,
whatever its arithmetic: the index `i` returned by
`categorical_distribution::operator()` is the first one that passes the test
`discr <= prefix_sum[i]`, where `prefix_sum[i]` is `weights[0] + ... +
weights[i]` as the machine adds it; the test holds at `i` and fails at every
`j < i`; and an index is returned as soon as some index passes the test. -/
theorem categorical_first_match (A : Arith) (weights : List A.D) (g : Gen)
    (hK : 1 ≤ weights.length) (_hnn : ∀ w ∈ weights, A.le A.zero w = true)
    (_hpos : ∃ w ∈ weights, A.lt A.zero w = true)
    (_hb : g.gmin < g.gmax) (_hlo : g.gmin ≤ g.draws g.pos) (_hhi : g.draws g.pos ≤ g.gmax) :
    (∀ i, ((machine.categorical_distribution.ctor A weights).call g).1 = some i →
        i < weights.length ∧
        A.le (A.mul (A.div (A.of_diff (g.draws g.pos) g.gmin) (A.of_diff g.gmax g.gmin))
            (left_sum A weights))
          (left_sum A (weights.take (i + 1))) = true ∧
        ∀ j, j < i →
          A.le (A.mul (A.div (A.of_diff (g.draws g.pos) g.gmin) (A.of_diff g.gmax g.gmin))
              (left_sum A weights))
            (left_sum A (weights.take (j + 1))) = false) ∧
      (∀ j, j < weights.length →
        A.le (A.mul (A.div (A.of_diff (g.draws g.pos) g.gmin) (A.of_diff g.gmax g.gmin))
            (left_sum A weights))
          (left_sum A (weights.take (j + 1))) = true →
        ∃ i, ((machine.categorical_distribution.ctor A weights).call g).1 = some i) := by
  rw [machine_categorical_call_eq A weights g hK]
  constructor
  · intro i hi
    obtain ⟨-, h2, h3, h4⟩ := machine_scan_loop_some A _ _ _ _ _ hi
    have hlt : i < weights.length := by omega
    refine ⟨hlt, ?_, ?_⟩
    · rw [machine_partial_sum_getD A weights i hlt] at h3
      exact h3
    · intro j hj
      have h := h4 j (Nat.zero_le _) hj
      rw [machine_partial_sum_getD A weights j (by omega)] at h
      exact h
  · intro j hj hle
    rw [← machine_partial_sum_getD A weights j hj] at hle
    exact machine_scan_loop_finds A _ _ weights.length 0 j (Nat.zero_le _) (by omega) hle

/-- Witness of C8: the exact rationals, weights `1, 2, 3` and the first draw of
`cyc_gen`. -/
theorem categorical_first_match_witness :
    (∀ i, ((machine.categorical_distribution.ctor exact_arith
          ([1, 2, 3] : List ℚ)).call cyc_gen).1 = some i →
        i < ([1, 2, 3] : List ℚ).length ∧
        exact_arith.le (exact_arith.mul (exact_arith.div
              (exact_arith.of_diff (cyc_gen.draws cyc_gen.pos) cyc_gen.gmin)
              (exact_arith.of_diff cyc_gen.gmax cyc_gen.gmin))
            (left_sum exact_arith ([1, 2, 3] : List ℚ)))
          (left_sum exact_arith (([1, 2, 3] : List ℚ).take (i + 1))) = true ∧
        ∀ j, j < i →
          exact_arith.le (exact_arith.mul (exact_arith.div
                (exact_arith.of_diff (cyc_gen.draws cyc_gen.pos) cyc_gen.gmin)
                (exact_arith.of_diff cyc_gen.gmax cyc_gen.gmin))
              (left_sum exact_arith ([1, 2, 3] : List ℚ)))
            (left_sum exact_arith (([1, 2, 3] : List ℚ).take (j + 1))) = false) ∧
      (∀ j, j < ([1, 2, 3] : List ℚ).length →
        exact_arith.le (exact_arith.mul (exact_arith.div
              (exact_arith.of_diff (cyc_gen.draws cyc_gen.pos) cyc_gen.gmin)
              (exact_arith.of_diff cyc_gen.gmax cyc_gen.gmin))
            (left_sum exact_arith ([1, 2, 3] : List ℚ)))
          (left_sum exact_arith (([1, 2, 3] : List ℚ).take (j + 1))) = true →
        ∃ i, ((machine.categorical_distribution.ctor exact_arith
          ([1, 2, 3] : List ℚ)).call cyc_gen).1 = some i) :=
  categorical_first_match exact_arith ([1, 2, 3] : List ℚ) cyc_gen (by decide)
    exact_arith_weights_nonneg ⟨(1 : ℚ), by simp, by simp [exact_arith]⟩
    (by decide) (by decide) (by decide)

/-- C9. For every `t ≥ 0`, every `p` and every generator with bounds `min < max`, the
value returned by `binomial_distribution::operator()` is the number of indices
`j` in `[0, t)` whose raw draw `r_j`, the `j`-th of the call, passes the test
`(r_j - min) < p * (max - min)` as the machine evaluates it, whatever its
arithmetic. -/
theorem binomial_counts_successes (A : Arith) (t : Int) (p : A.D) (g : Gen) (_ht : 0 ≤ t)
    (_hb : g.gmin < g.gmax) :
    ((machine.binomial_distribution.mk t p : machine.binomial_distribution A).call g).1 =
      (((List.range t.toNat).countP (fun j =>
        A.lt (A.of_diff (g.draws (g.pos + j)) g.gmin)
          (A.mul p (A.of_diff g.gmax g.gmin))) : Nat) : Int) := by
  unfold machine.binomial_distribution.call
  rw [machine_trial_loop_count, zero_add]
  rfl

/-- Witness of C9: the exact rationals, five trials of probability one half, drawn
from `cyc_gen`. -/
theorem binomial_counts_successes_witness :
    ((machine.binomial_distribution.mk 5 (1 / 2 : ℚ) :
        machine.binomial_distribution exact_arith).call cyc_gen).1 =
      (((List.range (5 : Int).toNat).countP (fun j =>
        exact_arith.lt (exact_arith.of_diff (cyc_gen.draws (cyc_gen.pos + j)) cyc_gen.gmin)
          (exact_arith.mul (1 / 2 : ℚ) (exact_arith.of_diff cyc_gen.gmax cyc_gen.gmin))) :
            Nat) : Int) :=
  binomial_counts_successes exact_arith 5 (1 / 2 : ℚ) cyc_gen (by decide) (by decide)

/-- C10. For every weight vector of length `K ≥ 1` and every `k` in `[0, K - 1)`
whose denominator is not zero, the table built by the constructor of
`multinomial_distribution` has `binom_p[k] = weights[k] / (total_mass -
(weights[0] + ... + weights[k - 1]))`, where `total_mass` is the sum of all
weights. -/
theorem binom_p_formula (t : Int) (weights : List ℚ) (k : Nat)
    (_hK : 1 ≤ weights.length) (hk : k + 1 < weights.length)
    (_hden : weights.sum - (weights.take k).sum ≠ 0) :
    (multinomial_distribution.ctor t weights).binom_p_[k]? =
      some (weights.getD k 0 / (weights.sum - (weights.take k).sum)) := by
  simp only [multinomial_distribution.ctor]
  rw [binom_p_loop_getElem _ weights 0 k (by omega), sum_loop_eq, zero_add, zero_add]

/-- Witness of C10: weights `1, 2, 3` and category `1`, where the entry is
`2 / (6 - 1)`. -/
theorem binom_p_formula_witness :
    (multinomial_distribution.ctor 5 [1, 2, 3]).binom_p_[1]? =
      some ([(1 : ℚ), 2, 3].getD 1 0 / ([(1 : ℚ), 2, 3].sum - ([(1 : ℚ), 2, 3].take 1).sum)) :=
  binom_p_formula 5 [1, 2, 3] 1 (by decide) (by decide) (by norm_num)

/-! ## Further facts about the running sums and the probability table -/

/-- With no negative weight, taking one more weight does not lower the sum. -/
theorem take_sum_le_succ (l : List ℚ) (hnn : ∀ w ∈ l, 0 ≤ w) (i : Nat) :
    (l.take i).sum ≤ (l.take (i + 1)).sum := by
  induction l generalizing i with
  | nil => simp
  | cons a l ih =>
    have ha : 0 ≤ a := hnn a (List.mem_cons_self a l)
    have hl : ∀ w ∈ l, 0 ≤ w := fun w hw => hnn w (List.mem_cons_of_mem a hw)
    cases i with
    | zero => simpa using ha
    | succ i =>
      simp only [List.take_succ_cons, List.sum_cons]
      exact add_le_add_left (ih hl i) a

/-- With no negative weight, the sums of the leading weights grow with their
number. -/
theorem take_sum_mono (l : List ℚ) (hnn : ∀ w ∈ l, 0 ≤ w) :
    Monotone (fun i => (l.take i).sum) :=
  monotone_nat_of_le_succ (take_sum_le_succ l hnn)

/-- The mass from category `k` on is the total mass less the mass before `k`. -/
theorem drop_sum_eq (l : List ℚ) (k : Nat) :
    (l.drop k).sum = l.sum - (l.take k).sum := by
  have h := List.sum_take_add_sum_drop l k
  linarith

/-- With no negative weight, weight `k` is at most the mass from category `k` on. -/
theorem getD_le_drop_sum (l : List ℚ) (hnn : ∀ w ∈ l, 0 ≤ w) (k : Nat) :
    l.getD k 0 ≤ (l.drop k).sum := by
  induction l generalizing k with
  | nil => simp
  | cons a l ih =>
    have hl : ∀ w ∈ l, 0 ≤ w := fun w hw => hnn w (List.mem_cons_of_mem a hw)
    cases k with
    | zero =>
      simp only [List.getD_cons_zero, List.drop_zero, List.sum_cons]
      have := List.sum_nonneg hl
      linarith
    | succ k =>
      simp only [List.getD_cons_succ, List.drop_succ_cons]
      exact ih hl k

/-- With no negative weight, no entry read out of the weight vector is negative. -/
theorem getD_nonneg (l : List ℚ) (hnn : ∀ w ∈ l, 0 ≤ w) (k : Nat) :
    0 ≤ l.getD k 0 := by
  induction l generalizing k with
  | nil => simp
  | cons a l ih =>
    have hl : ∀ w ∈ l, 0 ≤ w := fun w hw => hnn w (List.mem_cons_of_mem a hw)
    cases k with
    | zero => simpa using hnn a (List.mem_cons_self a l)
    | succ k =>
      simp only [List.getD_cons_succ]
      exact ih hl k

/-! ## Further facts about the category loop -/

/-- One iteration of the category loop, seen from its first category. -/
theorem count_list_cons (binom_p : List ℚ) (n k : Nat) (t_avail : Int) (g : Gen) :
    count_list binom_p (n + 1) k t_avail g =
      (((binomial_distribution.mk t_avail (binom_p.getD k 0)).call g).1 ::
          (count_list binom_p n (k + 1)
            (t_avail - ((binomial_distribution.mk t_avail (binom_p.getD k 0)).call g).1)
            ((binomial_distribution.mk t_avail (binom_p.getD k 0)).call g).2).1,
        (count_list binom_p n (k + 1)
            (t_avail - ((binomial_distribution.mk t_avail (binom_p.getD k 0)).call g).1)
            ((binomial_distribution.mk t_avail (binom_p.getD k 0)).call g).2).2) :=
  rfl

/-- One iteration of the category loop, seen from its last category: the loop
over `n + 1` categories is the loop over `n` categories followed by one binomial
draw on the trials left over, from the generator the `n` draws have left. -/
theorem count_list_snoc (binom_p : List ℚ) (n k : Nat) (t_avail : Int) (g : Gen) :
    count_list binom_p (n + 1) k t_avail g =
      ((count_list binom_p n k t_avail g).1 ++
          [((binomial_distribution.mk (count_list binom_p n k t_avail g).2.1
              (binom_p.getD (k + n) 0)).call (count_list binom_p n k t_avail g).2.2).1],
        (count_list binom_p n k t_avail g).2.1 -
          ((binomial_distribution.mk (count_list binom_p n k t_avail g).2.1
              (binom_p.getD (k + n) 0)).call (count_list binom_p n k t_avail g).2.2).1,
        ((binomial_distribution.mk (count_list binom_p n k t_avail g).2.1
              (binom_p.getD (k + n) 0)).call (count_list binom_p n k t_avail g).2.2).2) := by
  induction n generalizing k t_avail g with
  | zero => simp [count_list]
  | succ n ih =>
    rw [count_list_cons binom_p (n + 1), ih (k + 1), count_list_cons binom_p n k]
    have hk : k + 1 + n = k + (n + 1) := by omega
    simp only [hk, List.cons_append]

/-- The first `i` counts of the category loop are the counts of the loop over
`i` categories. -/
theorem count_list_take (binom_p : List ℚ) (n k i : Nat) (t_avail : Int) (g : Gen)
    (hi : i ≤ n) :
    (count_list binom_p n k t_avail g).1.take i = (count_list binom_p i k t_avail g).1 := by
  induction n with
  | zero =>
    have hi0 : i = 0 := by omega
    subst hi0
    simp [count_list]
  | succ n ih =>
    rcases Nat.eq_or_lt_of_le hi with rfl | hlt
    · exact List.take_of_length_le (by rw [count_list_length])
    · rw [count_list_snoc,
        List.take_append_of_le_length (by rw [count_list_length]; omega)]
      exact ih (by omega)

/-- Count `i` of the category loop is the binomial draw on the trials left over
by the loop over `i` categories, from the generator that loop has left. -/
theorem count_list_getD (binom_p : List ℚ) (n k i : Nat) (t_avail : Int) (g : Gen)
    (hi : i < n) :
    (count_list binom_p n k t_avail g).1.getD i 0 =
      ((binomial_distribution.mk (count_list binom_p i k t_avail g).2.1
          (binom_p.getD (k + i) 0)).call (count_list binom_p i k t_avail g).2.2).1 := by
  induction n with
  | zero => omega
  | succ n ih =>
    rw [count_list_snoc]
    rcases Nat.eq_or_lt_of_le (Nat.lt_succ_iff.mp hi) with rfl | hlt
    · rw [List.getD_append_right _ _ _ _ (by rw [count_list_length]), count_list_length]
      simp
    · rw [List.getD_append _ _ _ _ (by rw [count_list_length]; exact hlt)]
      exact ih hlt

/-- The generator state before category `k`, built from the counts of the sample,
is the generator the category loop over `k` categories has left. -/
theorem state_after_eq (binom_p : List ℚ) (n : Nat) (t : Int) (g : Gen) (last : Int)
    (k : Nat) (hk : k ≤ n) :
    state_after binom_p ((count_list binom_p n 0 t g).1 ++ [last]) t g k =
      (count_list binom_p k 0 t g).2.2 := by
  induction k with
  | zero => rfl
  | succ k ih =>
    have htake : ((count_list binom_p n 0 t g).1 ++ [last]).take k =
        (count_list binom_p k 0 t g).1 := by
      rw [List.take_append_of_le_length (by rw [count_list_length]; omega)]
      exact count_list_take binom_p n 0 k t g (by omega)
    have hsum := count_list_sum binom_p k 0 t g
    have hleft : t - (count_list binom_p k 0 t g).1.sum = (count_list binom_p k 0 t g).2.1 := by
      omega
    simp only [state_after]
    rw [ih (by omega), htake, hleft, count_list_snoc, Nat.zero_add]

/-- The sample of a multinomial distribution built by the constructor over a
non-empty weight vector, with the number of visited categories written out. -/
theorem multinomial_ctor_call_eq (t : Int) (weights : List ℚ) (g : Gen)
    (hK : 1 ≤ weights.length) :
    (multinomial_distribution.ctor t weights).call g =
      (some ((count_list (multinomial_distribution.ctor t weights).binom_p_
                (weights.length - 1) 0 t g).1 ++
          [(count_list (multinomial_distribution.ctor t weights).binom_p_
                (weights.length - 1) 0 t g).2.1]),
        (count_list (multinomial_distribution.ctor t weights).binom_p_
                (weights.length - 1) 0 t g).2.2) := by
  have hK1 : (1 : Int) ≤ (multinomial_distribution.ctor t weights).K_ := by
    simp only [multinomial_distribution.ctor]
    omega
  have hn : ((multinomial_distribution.ctor t weights).K_ - 1).toNat = weights.length - 1 := by
    simp only [multinomial_distribution.ctor]
    omega
  rw [multinomial_call_eq _ g hK1, hn]
  rfl

/-- With a non-negative number of trials available, the cursor after the
category loop has moved by the trials available before each visited category,
added up: before category `i` these are the initial trials less the counts of
the categories before `i`. -/
theorem count_list_pos (binom_p : List ℚ) (n k : Nat) (t_avail : Int) (g : Gen)
    (ht : 0 ≤ t_avail) :
    ((count_list binom_p n k t_avail g).2.2.pos : Int) =
      g.pos + ((List.range n).map
        (fun i => t_avail - ((count_list binom_p n k t_avail g).1.take i).sum)).sum := by
  induction n with
  | zero => simp [count_list]
  | succ n ih =>
    have hsum := count_list_sum binom_p n k t_avail g
    have hnn := (count_list_nonneg binom_p n k t_avail g ht).2
    have hlen := count_list_length binom_p n k t_avail g
    rw [count_list_snoc, binomial_call_gen, List.range_succ, List.map_append, List.sum_append]
    have hmap : (List.range n).map (fun i => t_avail -
          (((count_list binom_p n k t_avail g).1 ++
            [((binomial_distribution.mk (count_list binom_p n k t_avail g).2.1
              (binom_p.getD (k + n) 0)).call (count_list binom_p n k t_avail g).2.2).1]).take
              i).sum) =
        (List.range n).map (fun i => t_avail -
          ((count_list binom_p n k t_avail g).1.take i).sum) := by
      apply List.map_congr_left
      intro i hi
      rw [List.mem_range] at hi
      rw [List.take_append_of_le_length (by omega)]
    rw [hmap]
    simp only [List.map_cons, List.map_nil, List.sum_cons, List.sum_nil, add_zero]
    rw [List.take_left' hlen]
    push_cast
    rw [ih]
    have hcast : (((count_list binom_p n k t_avail g).2.1.toNat : Nat) : Int) =
        (count_list binom_p n k t_avail g).2.1 := Int.toNat_of_nonneg hnn
    rw [hcast]
    omega

/-! ## Facts about generators that agree on their draws -/

/-- Generators that agree on their draws still do after the same number of
draws. -/
theorem same_draws_shift (g1 g2 : Gen) (n : Nat) (h : g1.same_draws g2) :
    Gen.same_draws { g1 with pos := g1.pos + n } { g2 with pos := g2.pos + n } := by
  refine ⟨h.1, h.2.1, ?_⟩
  intro j
  have := h.2.2 (n + j)
  simpa only [Nat.add_assoc] using this

/-- The binomial sample is the same on generators that agree on their draws. -/
theorem binomial_call_congr (d : binomial_distribution) (g1 g2 : Gen)
    (h : g1.same_draws g2) : (d.call g1).1 = (d.call g2).1 := by
  unfold binomial_distribution.call
  rw [trial_loop_count, trial_loop_count, h.1, h.2.1]
  have hfun : (fun j => binomial_distribution.success d.p_ g2.gmin g2.gmax
        (g1.draws (g1.pos + j))) =
      fun j => binomial_distribution.success d.p_ g2.gmin g2.gmax (g2.draws (g2.pos + j)) := by
    funext j
    rw [h.2.2 j]
  rw [hfun]

/-- The category loop gives the same counts and the same trials left over on
generators that agree on their draws, and moves both cursors by the same
number of draws. -/
theorem count_list_congr (binom_p : List ℚ) (n k : Nat) (t_avail : Int) (g1 g2 : Gen)
    (h : g1.same_draws g2) :
    (count_list binom_p n k t_avail g1).1 = (count_list binom_p n k t_avail g2).1 ∧
      (count_list binom_p n k t_avail g1).2.1 = (count_list binom_p n k t_avail g2).2.1 ∧
      ∃ m, (count_list binom_p n k t_avail g1).2.2 = { g1 with pos := g1.pos + m } ∧
        (count_list binom_p n k t_avail g2).2.2 = { g2 with pos := g2.pos + m } := by
  induction n generalizing k t_avail g1 g2 with
  | zero => exact ⟨rfl, rfl, 0, rfl, rfl⟩
  | succ n ih =>
    have hb := binomial_call_congr (binomial_distribution.mk t_avail (binom_p.getD k 0)) g1 g2 h
    have hg1 := binomial_call_gen (binomial_distribution.mk t_avail (binom_p.getD k 0)) g1
    have hg2 := binomial_call_gen (binomial_distribution.mk t_avail (binom_p.getD k 0)) g2
    rw [count_list_cons, count_list_cons, hb, hg1, hg2]
    obtain ⟨h1, h2, m, h3, h4⟩ := ih (k + 1)
      (t_avail - ((binomial_distribution.mk t_avail (binom_p.getD k 0)).call g2).1) _ _
      (same_draws_shift g1 g2 (binomial_distribution.mk t_avail (binom_p.getD k 0)).t_.toNat h)
    refine ⟨by rw [h1], h2, (binomial_distribution.mk t_avail (binom_p.getD k 0)).t_.toNat + m,
      ?_, ?_⟩
    · rw [h3]
      simp only [Nat.add_assoc]
    · rw [h4]
      simp only [Nat.add_assoc]

/-! ## Behaviour away from the boundary draws -/

/-- Taking one more weight adds that weight to the sum. -/
theorem take_succ_sum (l : List ℚ) (i : Nat) :
    (l.take (i + 1)).sum = (l.take i).sum + l.getD i 0 := by
  induction l generalizing i with
  | nil => simp
  | cons a l ih =>
    cases i with
    | zero => simp
    | succ i =>
      simp only [List.take_succ_cons, List.sum_cons, List.getD_cons_succ]
      rw [ih i, add_assoc]

/-- With success probability `1`, a binomial draw whose raw values all lie below
`max` counts every trial, arithmetic taken exactly. -/
theorem binomial_certain_below_max (t : Int) (g : Gen) (ht : 0 ≤ t)
    (hlt : ∀ n, g.draws n < g.gmax) :
    ((binomial_distribution.mk t 1).call g).1 = t := by
  unfold binomial_distribution.call
  rw [trial_loop_count]
  have hall : (List.range t.toNat).countP
      (fun j => binomial_distribution.success 1 g.gmin g.gmax (g.draws (g.pos + j))) =
        (List.range t.toNat).length := by
    rw [List.countP_eq_length]
    intro j _
    simp only [binomial_distribution.success, decide_eq_true_eq, one_mul]
    have := hlt (g.pos + j)
    exact_mod_cast (by omega : g.draws (g.pos + j) - g.gmin < g.gmax - g.gmin)
  rw [hall, List.length_range]
  simp only [zero_add]
  exact Int.toNat_of_nonneg ht

/-- With success probability `0`, a binomial draw whose raw values are not below
`min` counts no trial, arithmetic taken exactly. -/
theorem binomial_impossible (t : Int) (g : Gen) (hge : ∀ n, g.gmin ≤ g.draws n) :
    ((binomial_distribution.mk t 0).call g).1 = 0 := by
  unfold binomial_distribution.call
  rw [trial_loop_count]
  have hnone : (List.range t.toNat).countP
      (fun j => binomial_distribution.success 0 g.gmin g.gmax (g.draws (g.pos + j))) = 0 := by
    rw [List.countP_eq_zero]
    intro j _
    simp only [binomial_distribution.success, decide_eq_true_eq, zero_mul, not_lt]
    have := hge (g.pos + j)
    exact_mod_cast (by omega : (0 : Int) ≤ g.draws (g.pos + j) - g.gmin)
  rw [hnone]
  rfl

/-- A category of weight zero other than the last receives no trial, when no raw
value is below `min`, arithmetic taken exactly. -/
theorem zero_weight_inner_category (t : Int) (weights : List ℚ) (g : Gen) (k : Nat)
    (ht : 0 ≤ t) (hk : k + 1 < weights.length) (hzero : weights.getD k 0 = 0)
    (hge : ∀ n, g.gmin ≤ g.draws n) :
    ∃ counts, ((multinomial_distribution.ctor t weights).call g).1 = some counts ∧
      counts.getD k 0 = 0 := by
  rw [multinomial_ctor_call_eq t weights g (by omega)]
  refine ⟨_, rfl, ?_⟩
  have hkn : k < weights.length - 1 := by omega
  rw [List.getD_append _ _ _ _ (by rw [count_list_length]; exact hkn),
    count_list_getD _ _ _ _ _ _ hkn, Nat.zero_add]
  have hp : (multinomial_distribution.ctor t weights).binom_p_.getD k 0 = 0 := by
    rw [List.getD_eq_getElem?_getD]
    simp only [multinomial_distribution.ctor]
    rw [binom_p_loop_getElem _ weights 0 k (by omega), hzero]
    simp
  rw [hp]
  have hgen := count_list_gen (multinomial_distribution.ctor t weights).binom_p_ k 0 t g ht
  apply binomial_impossible
  intro n
  rw [hgen.1, hgen.2.2.1]
  exact hge n

/-- For a raw value above `min` and up to `max`, the index returned by the
categorical distribution has a positive weight, when no weight is negative and
one is positive, arithmetic taken exactly. -/
theorem categorical_positive_weight (weights : List ℚ) (g : Gen)
    (hK : 1 ≤ weights.length) (hnn : ∀ w ∈ weights, 0 ≤ w) (hpos : ∃ w ∈ weights, 0 < w)
    (hb : g.gmin < g.gmax) (hlo : g.gmin < g.draws g.pos) (hhi : g.draws g.pos ≤ g.gmax) :
    ∃ i : Nat, ((categorical_distribution.ctor weights).call g).1 = some i ∧
      0 < weights.getD i 0 := by
  obtain ⟨i, hi⟩ := categorical_scan_finds weights g hK hnn hb hlo.le hhi
  obtain ⟨-, h2, h3, h4⟩ := scan_loop_some _ _ _ _ _ hi
  have hlt : i < weights.length := by omega
  refine ⟨i, by rw [categorical_call_eq weights g hK]; exact hi, ?_⟩
  have hsum : 0 < weights.sum := by
    obtain ⟨w, hw, hw0⟩ := hpos
    exact lt_of_lt_of_le hw0 (List.single_le_sum hnn w hw)
  have hunif : 0 < categorical_distribution.unif g.gmin g.gmax (g.draws g.pos) := by
    unfold categorical_distribution.unif
    have hden : (0 : ℚ) < ((g.gmax - g.gmin : Int) : ℚ) := by
      exact_mod_cast (by omega : (0 : Int) < g.gmax - g.gmin)
    have hnum : (0 : ℚ) < ((g.draws g.pos - g.gmin : Int) : ℚ) := by
      exact_mod_cast (by omega : (0 : Int) < g.draws g.pos - g.gmin)
    exact div_pos hnum hden
  have hdiscr := mul_pos hunif hsum
  rw [partial_sum_getD weights i hlt, take_succ_sum] at h3
  cases i with
  | zero =>
    simp only [List.take_zero, List.sum_nil, zero_add] at h3
    exact lt_of_lt_of_le hdiscr h3
  | succ i =>
    have hprev := h4 i (Nat.zero_le _) (Nat.lt_succ_self i)
    rw [partial_sum_getD weights i (by omega)] at hprev
    linarith

/-! ## Settled statements, continued -/

/-- C12. For every weight vector of length `K ≥ 1` with no negative weight, the
vector of running sums stored by the constructor of `categorical_distribution`
has length `K`, its entry `i` is `weights[0] + ... + weights[i]` as the machine
adds it from the left, its entries do not decrease, and its last entry is the
total mass, the sum of all weights so added.  This holds whatever the arithmetic
of the machine, given for the order of the entries that adding a non-negative
value to a non-negative value gives neither less nor a negative value, and that
`<=` is transitive. -/
theorem partsums_invariant (A : Arith) (weights : List A.D) (hK : 1 ≤ weights.length)
    (hnn : ∀ w ∈ weights, A.le A.zero w = true)
    (hadd : ∀ a w, A.le A.zero a = true → A.le A.zero w = true →
      A.le a (A.add a w) = true ∧ A.le A.zero (A.add a w) = true)
    (htrans : ∀ a b c, A.le a b = true → A.le b c = true → A.le a c = true) :
    (machine.categorical_distribution.ctor A weights).partsums_weights_.length =
        weights.length ∧
      (∀ i, i < weights.length →
        (machine.categorical_distribution.ctor A weights).partsums_weights_[i]? =
          some (left_sum A (weights.take (i + 1)))) ∧
      (∀ i j, i < j → j < weights.length →
        A.le ((machine.categorical_distribution.ctor A weights).partsums_weights_.getD i A.zero)
          ((machine.categorical_distribution.ctor A weights).partsums_weights_.getD j A.zero)
            = true) ∧
      (machine.categorical_distribution.ctor A weights).partsums_weights_.getLast? =
        some (left_sum A weights) := by
  simp only [machine.categorical_distribution.ctor]
  refine ⟨machine_partial_sum_length A weights,
    fun i hi => machine_partial_sum_getElem A weights i hi, ?_,
    machine_partial_sum_getLast A weights hK⟩
  have hstep : ∀ i, i + 1 < weights.length →
      A.le ((machine.partial_sum A weights).getD i A.zero)
        ((machine.partial_sum A weights).getD (i + 1) A.zero) = true := by
    intro i hi
    cases weights with
    | nil => simp at hK
    | cons w ws =>
      simp only [List.length_cons, Nat.add_lt_add_iff_right] at hi
      exact machine_partial_sum_loop_step A hadd ws w (hnn w (List.mem_cons_self w ws))
        (fun x hx => hnn x (List.mem_cons_of_mem w hx)) i hi
  intro i j hij hj
  induction j, hij using Nat.le_induction with
  | base => exact hstep i hj
  | succ j hij ih => exact htrans _ _ _ (ih (by omega)) (hstep j hj)

/-- Witness of C12: the exact rationals and weights `1, 2, 3`, whose running sums
are `1, 3, 6`. -/
theorem partsums_invariant_witness :
    (machine.categorical_distribution.ctor exact_arith
          ([1, 2, 3] : List ℚ)).partsums_weights_.length = ([1, 2, 3] : List ℚ).length ∧
      (∀ i, i < ([1, 2, 3] : List ℚ).length →
        (machine.categorical_distribution.ctor exact_arith
            ([1, 2, 3] : List ℚ)).partsums_weights_[i]? =
          some (left_sum exact_arith (([1, 2, 3] : List ℚ).take (i + 1)))) ∧
      (∀ i j, i < j → j < ([1, 2, 3] : List ℚ).length →
        exact_arith.le
          ((machine.categorical_distribution.ctor exact_arith
            ([1, 2, 3] : List ℚ)).partsums_weights_.getD i exact_arith.zero)
          ((machine.categorical_distribution.ctor exact_arith
            ([1, 2, 3] : List ℚ)).partsums_weights_.getD j exact_arith.zero) = true) ∧
      (machine.categorical_distribution.ctor exact_arith
          ([1, 2, 3] : List ℚ)).partsums_weights_.getLast? =
        some (left_sum exact_arith ([1, 2, 3] : List ℚ)) :=
  partsums_invariant exact_arith ([1, 2, 3] : List ℚ) (by decide)
    exact_arith_weights_nonneg exact_arith_add_nonneg exact_arith_le_trans

/-- C18. For every weight vector of length `K ≥ 1` with no negative weight and
positive remaining mass before each category `k` in `[0, K - 1)`, every
conditional probability `binom_p[k]` with `k` in `[0, K - 1)` computed by the
constructor of `multinomial_distribution` lies in `[0, 1]`. -/
theorem binom_p_unit_interval (t : Int) (weights : List ℚ) (k : Nat)
    (_hK : 1 ≤ weights.length) (hw : valid_weights weights) (hk : k + 1 < weights.length) :
    ∃ q, (multinomial_distribution.ctor t weights).binom_p_[k]? = some q ∧ 0 ≤ q ∧ q ≤ 1 := by
  simp only [multinomial_distribution.ctor]
  rw [binom_p_loop_getElem _ weights 0 k (by omega), sum_loop_eq, zero_add, zero_add,
    ← drop_sum_eq]
  have hpos := hw.2 k hk
  exact ⟨_, rfl, div_nonneg (getD_nonneg weights hw.1 k) hpos.le,
    (div_le_one hpos).mpr (getD_le_drop_sum weights hw.1 k)⟩

/-- Witness of C18: three equal weights and category `1`, where the entry is
`1 / 2`. -/
theorem binom_p_unit_interval_witness :
    ∃ q, (multinomial_distribution.ctor 5 [1, 1, 1]).binom_p_[1]? = some q ∧ 0 ≤ q ∧ q ≤ 1 :=
  binom_p_unit_interval 5 [1, 1, 1] 1 (by decide) valid_weights_ones (by decide)

/-- C20. For every `t ≥ 0`, every generator state with bounds `min < max` and every
pair of probabilities `p ≤ p'`, the sample of `binomial_distribution(t, p)` is
at most the sample of `binomial_distribution(t, p')` on the same generator
state. -/
theorem binomial_mono_p (t : Int) (p p' : ℚ) (g : Gen) (_ht : 0 ≤ t)
    (hb : g.gmin < g.gmax) (hp : p ≤ p') :
    ((binomial_distribution.mk t p).call g).1 ≤ ((binomial_distribution.mk t p').call g).1 := by
  unfold binomial_distribution.call
  rw [trial_loop_count, trial_loop_count]
  have hR : (0 : ℚ) ≤ ((g.gmax - g.gmin : Int) : ℚ) := by
    have : (0 : Int) ≤ g.gmax - g.gmin := by omega
    exact_mod_cast this
  have hmono := List.countP_mono_left (l := List.range t.toNat)
    (p := fun j => binomial_distribution.success p g.gmin g.gmax (g.draws (g.pos + j)))
    (q := fun j => binomial_distribution.success p' g.gmin g.gmax (g.draws (g.pos + j)))
    (by
      intro j _ hj
      simp only [binomial_distribution.success, decide_eq_true_eq] at hj ⊢
      exact lt_of_lt_of_le hj (mul_le_mul_of_nonneg_right hp hR))
  simp only [zero_add]
  exact_mod_cast hmono

/-- Witness of C20: five trials on `cyc_gen` with probabilities `3/10` and `7/10`. -/
theorem binomial_mono_p_witness :
    ((binomial_distribution.mk 5 (3 / 10)).call cyc_gen).1 ≤
      ((binomial_distribution.mk 5 (7 / 10)).call cyc_gen).1 :=
  binomial_mono_p 5 (3 / 10) (7 / 10) cyc_gen (by decide) (by decide) (by norm_num)

/-- C14. The normalised value `unif = (raw - min) / (max - min)` of
`categorical_distribution::operator()` is meant to lie in the open interval
`(0, 1)`; at a raw draw equal to `min` the code computes `0`, and at a raw draw
equal to `max` it computes `1`. -/
theorem unif_reaches_endpoints :
    bottom_gen.well_formed ∧ top_gen.well_formed ∧
      categorical_distribution.unif bottom_gen.gmin bottom_gen.gmax
        (bottom_gen.draws bottom_gen.pos) = 0 ∧
      categorical_distribution.unif top_gen.gmin top_gen.gmax
        (top_gen.draws top_gen.pos) = 1 := by
  refine ⟨bottom_gen_well_formed, top_gen_well_formed, ?_, ?_⟩
  · norm_num [categorical_distribution.unif, bottom_gen]
  · norm_num [categorical_distribution.unif, top_gen]

/-- C15. A category of weight zero is meant to receive no trial; with one trial,
weights `1, 0` and a raw draw equal to `max`, the code gives the trial to the
last category, whose weight is zero. -/
theorem zero_weight_last_category_counted :
    valid_weights [1, 0] ∧ top_gen.well_formed ∧ [(1 : ℚ), 0].getD 1 0 = 0 ∧
      ((multinomial_distribution.ctor 1 [1, 0]).call top_gen).1 = some [0, 1] := by
  refine ⟨valid_weights_one_zero, top_gen_well_formed, rfl, ?_⟩
  have h2 : Int.toNat 2 = 2 := rfl
  norm_num [multinomial_distribution.call, multinomial_distribution.ctor,
    multinomial_distribution.count_loop, multinomial_distribution.binom_p_loop,
    multinomial_distribution.sum_loop, binomial_distribution.call,
    binomial_distribution.trial_loop, binomial_distribution.success, Gen.next, top_gen,
    h2, List.replicate]

/-- C16. A category of weight zero is meant never to be sampled; with weights
`0, 1` and a raw draw equal to `min`, the code returns index `0`, whose weight
is zero. -/
theorem zero_weight_category_sampled :
    (∀ w ∈ [(0 : ℚ), 1], 0 ≤ w) ∧ (∃ w ∈ [(0 : ℚ), 1], 0 < w) ∧ bottom_gen.well_formed ∧
      [(0 : ℚ), 1].getD 0 0 = 0 ∧
      ((categorical_distribution.ctor [0, 1]).call bottom_gen).1 = some 0 := by
  refine ⟨by simp, ⟨1, by simp⟩, bottom_gen_well_formed, rfl, ?_⟩
  norm_num [categorical_distribution.call, categorical_distribution.ctor, partial_sum,
    partial_sum_loop, categorical_distribution.scan_loop, categorical_distribution.unif,
    Gen.next, bottom_gen]

/-- C17. With success probability `1` every trial is meant to count as a success;
with one trial and a raw draw equal to `max`, the code returns `0`. -/
theorem certain_trial_missed :
    top_gen.well_formed ∧ ((binomial_distribution.mk 1 1).call top_gen).1 = 0 := by
  refine ⟨top_gen_well_formed, ?_⟩
  norm_num [binomial_distribution.call, binomial_distribution.trial_loop,
    binomial_distribution.success, Gen.next, top_gen]

/-- C13. For every valid `(t, weights)` with `K ≥ 1` and every generator state `g0`,
the multinomial sample is a chain of binomial draws: for each `k` in
`[0, K - 1)`, `count[k]` is the result of `binomial_distribution(t - (count[0] +
... + count[k-1]), binom_p[k])` on the generator state left by the draws for the
categories before `k`, starting from `g0`; `count[K-1]` is `t - (count[0] + ... +
count[K-2])`; and the generator is left in the state after the last draw. -/
theorem multinomial_binomial_chain (t : Int) (weights : List ℚ) (g0 : Gen)
    (_ht : 0 ≤ t) (hK : 1 ≤ weights.length) (_hw : valid_weights weights) :
    ∃ counts, ((multinomial_distribution.ctor t weights).call g0).1 = some counts ∧
      counts.length = weights.length ∧
      (∀ k, k + 1 < weights.length →
        counts.getD k 0 =
          ((binomial_distribution.mk (t - (counts.take k).sum)
              ((multinomial_distribution.ctor t weights).binom_p_.getD k 0)).call
            (state_after (multinomial_distribution.ctor t weights).binom_p_ counts t g0 k)).1) ∧
      counts.getD (weights.length - 1) 0 = t - (counts.take (weights.length - 1)).sum ∧
      ((multinomial_distribution.ctor t weights).call g0).2 =
        state_after (multinomial_distribution.ctor t weights).binom_p_ counts t g0
          (weights.length - 1) := by
  rw [multinomial_ctor_call_eq t weights g0 hK]
  refine ⟨_, rfl, ?_, ?_, ?_, ?_⟩
  · rw [List.length_append, count_list_length, List.length_singleton]
    omega
  · intro k hk
    have hkn : k < weights.length - 1 := by omega
    rw [List.getD_append _ _ _ _ (by rw [count_list_length]; exact hkn),
      count_list_getD _ _ _ _ _ _ hkn, state_after_eq _ _ _ _ _ k (by omega),
      List.take_append_of_le_length (by rw [count_list_length]; omega),
      count_list_take _ _ _ _ _ _ (by omega), Nat.zero_add]
    have hsum := count_list_sum (multinomial_distribution.ctor t weights).binom_p_ k 0 t g0
    have hleft : t - (count_list (multinomial_distribution.ctor t weights).binom_p_ k 0 t g0).1.sum
        = (count_list (multinomial_distribution.ctor t weights).binom_p_ k 0 t g0).2.1 := by
      omega
    rw [hleft]
  · have hsum := count_list_sum (multinomial_distribution.ctor t weights).binom_p_
      (weights.length - 1) 0 t g0
    rw [List.getD_append_right _ _ _ _ (by rw [count_list_length]), count_list_length,
      List.take_left' (count_list_length _ _ _ _ _)]
    simp only [Nat.sub_self, List.getD_cons_zero]
    omega
  · exact (state_after_eq _ _ _ _ _ (weights.length - 1) (le_refl _)).symm

/-- Witness of C13: five trials over three equal weights, drawn from `cyc_gen`. -/
theorem multinomial_binomial_chain_witness :
    ∃ counts, ((multinomial_distribution.ctor 5 [1, 1, 1]).call cyc_gen).1 = some counts ∧
      counts.length = [(1 : ℚ), 1, 1].length ∧
      (∀ k, k + 1 < [(1 : ℚ), 1, 1].length →
        counts.getD k 0 =
          ((binomial_distribution.mk (5 - (counts.take k).sum)
              ((multinomial_distribution.ctor 5 [1, 1, 1]).binom_p_.getD k 0)).call
            (state_after (multinomial_distribution.ctor 5 [1, 1, 1]).binom_p_ counts 5
              cyc_gen k)).1) ∧
      counts.getD ([(1 : ℚ), 1, 1].length - 1) 0 =
        5 - (counts.take ([(1 : ℚ), 1, 1].length - 1)).sum ∧
      ((multinomial_distribution.ctor 5 [1, 1, 1]).call cyc_gen).2 =
        state_after (multinomial_distribution.ctor 5 [1, 1, 1]).binom_p_ counts 5 cyc_gen
          ([(1 : ℚ), 1, 1].length - 1) :=
  multinomial_binomial_chain 5 [1, 1, 1] cyc_gen (by decide) (by decide) valid_weights_ones

/-- C19. For every valid `(t, weights)` with `K ≥ 1` and every generator, one call of
`multinomial_distribution::operator()` consumes exactly the sum over `k` in
`[0, K - 1)` of `t - (count[0] + ... + count[k-1])` draws, which is at most
`(K - 1) * t`; for `K = 1` it consumes none and leaves the generator as it
was. -/
theorem multinomial_draws_exact (t : Int) (weights : List ℚ) (g : Gen)
    (ht : 0 ≤ t) (hK : 1 ≤ weights.length) (_hw : valid_weights weights) :
    ∃ counts, ((multinomial_distribution.ctor t weights).call g).1 = some counts ∧
      (((multinomial_distribution.ctor t weights).call g).2.pos : Int) - g.pos =
        ((List.range (weights.length - 1)).map
          (fun k => t - (counts.take k).sum)).sum ∧
      ((List.range (weights.length - 1)).map (fun k => t - (counts.take k).sum)).sum ≤
        ((weights.length : Int) - 1) * t ∧
      (weights.length = 1 → ((multinomial_distribution.ctor t weights).call g).2 = g) := by
  rw [multinomial_ctor_call_eq t weights g hK]
  have hpos := count_list_pos (multinomial_distribution.ctor t weights).binom_p_
    (weights.length - 1) 0 t g ht
  have hmap : (List.range (weights.length - 1)).map (fun k => t -
        (((count_list (multinomial_distribution.ctor t weights).binom_p_
            (weights.length - 1) 0 t g).1 ++
          [(count_list (multinomial_distribution.ctor t weights).binom_p_
            (weights.length - 1) 0 t g).2.1]).take k).sum) =
      (List.range (weights.length - 1)).map (fun k => t -
        ((count_list (multinomial_distribution.ctor t weights).binom_p_
            (weights.length - 1) 0 t g).1.take k).sum) := by
    apply List.map_congr_left
    intro i hi
    rw [List.mem_range] at hi
    rw [List.take_append_of_le_length (by rw [count_list_length]; omega)]
  have hgen := count_list_gen (multinomial_distribution.ctor t weights).binom_p_
    (weights.length - 1) 0 t g ht
  obtain ⟨-, -, -, -, hhi⟩ := hgen
  have htn : ((t.toNat : Nat) : Int) = t := Int.toNat_of_nonneg ht
  have hcast : (((weights.length - 1) * t.toNat : Nat) : Int)
      = ((weights.length : Int) - 1) * t := by
    rw [Nat.cast_mul, htn, Nat.cast_sub hK]
    simp
  refine ⟨_, rfl, ?_, ?_, ?_⟩
  · simp only
    rw [hmap]
    omega
  · rw [hmap]
    omega
  · intro h1
    simp only [h1, Nat.sub_self, count_list]

/-- Witness of C19: five trials over three equal weights, drawn from `cyc_gen`. -/
theorem multinomial_draws_exact_witness :
    ∃ counts, ((multinomial_distribution.ctor 5 [1, 1, 1]).call cyc_gen).1 = some counts ∧
      (((multinomial_distribution.ctor 5 [1, 1, 1]).call cyc_gen).2.pos : Int) - cyc_gen.pos =
        ((List.range ([(1 : ℚ), 1, 1].length - 1)).map
          (fun k => 5 - (counts.take k).sum)).sum ∧
      ((List.range ([(1 : ℚ), 1, 1].length - 1)).map (fun k => 5 - (counts.take k).sum)).sum ≤
        (([(1 : ℚ), 1, 1].length : Int) - 1) * 5 ∧
      ([(1 : ℚ), 1, 1].length = 1 →
        ((multinomial_distribution.ctor 5 [1, 1, 1]).call cyc_gen).2 = cyc_gen) :=
  multinomial_draws_exact 5 [1, 1, 1] cyc_gen (by decide) (by decide) valid_weights_ones

/-- C11. Determinism, for each of the three distributions: on generators with equal
bounds and equal raw values from their cursors on (equal generator states in
particular), two sampling calls with the same distribution return equal samples
and move both cursors by the same number of draws, changing nothing else. -/
theorem sampling_deterministic (b : binomial_distribution) (c : categorical_distribution)
    (m : multinomial_distribution) (g1 g2 : Gen) (h : g1.same_draws g2) :
    ((b.call g1).1 = (b.call g2).1 ∧
        ∃ n, (b.call g1).2 = { g1 with pos := g1.pos + n } ∧
          (b.call g2).2 = { g2 with pos := g2.pos + n }) ∧
      ((c.call g1).1 = (c.call g2).1 ∧
        ∃ n, (c.call g1).2 = { g1 with pos := g1.pos + n } ∧
          (c.call g2).2 = { g2 with pos := g2.pos + n }) ∧
      ((m.call g1).1 = (m.call g2).1 ∧
        ∃ n, (m.call g1).2 = { g1 with pos := g1.pos + n } ∧
          (m.call g2).2 = { g2 with pos := g2.pos + n }) := by
  refine ⟨⟨binomial_call_congr b g1 g2 h, b.t_.toNat, binomial_call_gen b g1,
    binomial_call_gen b g2⟩, ?_, ?_⟩
  · have h0 : g1.draws g1.pos = g2.draws g2.pos := by simpa using h.2.2 0
    refine ⟨?_, 1, ?_, ?_⟩
    · simp only [categorical_distribution.call, Gen.next, h.1, h.2.1, h0]
      cases c.partsums_weights_.getLast? <;> rfl
    · simp only [categorical_distribution.call, Gen.next]
      cases c.partsums_weights_.getLast? <;> rfl
    · simp only [categorical_distribution.call, Gen.next]
      cases c.partsums_weights_.getLast? <;> rfl
  · by_cases hK : 1 ≤ m.K_
    · rw [multinomial_call_eq m g1 hK, multinomial_call_eq m g2 hK]
      obtain ⟨h1, h2, n, h3, h4⟩ :=
        count_list_congr m.binom_p_ (m.K_ - 1).toNat 0 m.t_ g1 g2 h
      exact ⟨by simp only [h1, h2], n, h3, h4⟩
    · have hK0 : m.K_ ≤ 0 := by omega
      rw [multinomial_distribution.call, multinomial_distribution.call, if_pos hK0,
        if_pos hK0]
      exact ⟨rfl, 0, rfl, rfl⟩

/-- The generator `cyc_gen` and the same generator one full cycle later agree on
their draws. -/
theorem cyc_gen_same_draws_lap : cyc_gen.same_draws cyc_gen_lap := by
  refine ⟨rfl, rfl, ?_⟩
  intro j
  simp only [cyc_gen, cyc_gen_lap]
  omega

/-- Witness of C11: the three sample distributions on `cyc_gen` and on the same
generator one full cycle later. -/
theorem sampling_deterministic_witness :
    cyc_gen.same_draws cyc_gen_lap ∧
      ((binomial_distribution.mk 5 (1 / 2)).call cyc_gen).1 =
        ((binomial_distribution.mk 5 (1 / 2)).call cyc_gen_lap).1 ∧
      ((categorical_distribution.ctor [1, 2, 3]).call cyc_gen).1 =
        ((categorical_distribution.ctor [1, 2, 3]).call cyc_gen_lap).1 ∧
      ((multinomial_distribution.ctor 5 [1, 1, 1]).call cyc_gen).1 =
        ((multinomial_distribution.ctor 5 [1, 1, 1]).call cyc_gen_lap).1 :=
  ⟨cyc_gen_same_draws_lap,
    (sampling_deterministic (binomial_distribution.mk 5 (1 / 2))
      (categorical_distribution.ctor [1, 2, 3]) (multinomial_distribution.ctor 5 [1, 1, 1])
      cyc_gen cyc_gen_lap cyc_gen_same_draws_lap).1.1,
    (sampling_deterministic (binomial_distribution.mk 5 (1 / 2))
      (categorical_distribution.ctor [1, 2, 3]) (multinomial_distribution.ctor 5 [1, 1, 1])
      cyc_gen cyc_gen_lap cyc_gen_same_draws_lap).2.1.1,
    (sampling_deterministic (binomial_distribution.mk 5 (1 / 2))
      (categorical_distribution.ctor [1, 2, 3]) (multinomial_distribution.ctor 5 [1, 1, 1])
      cyc_gen cyc_gen_lap cyc_gen_same_draws_lap).2.2.1⟩

end pserng
